import Mathlib

/-!
git-recurse-status: status probing and filter evaluation

A shallow embedding of `main.go`.

Modelling conventions.

* A Go `string` is modelled by the list of its Unicode code points
  (`List Char`); the embedding therefore covers the strings that are valid
  UTF-8.  Where the program works on bytes (`len(s)`, `s[0:2]`) the model goes
  through the UTF-8 encoding (`goLen`, `goBytes`).
* `map[string]bool` is an association list read with Go's lookup semantics
  (the first binding of a key, `false` when the key is absent).
* `execGitCommand` is an oracle `GitExec`: it maps the working directory and
  the argument vector to the captured standard output and the error value.
* The global `cfg.Or` is passed as the argument `cfgOr`.
* `walkerFkt` returns what it sends to `traverseResults` together with its
  error; `filepath.Walk` is modelled on file trees whose entries can all be
  read, with the paths handed to the walk function and the paths published
  kept in a log.
* The two threads of `main` are a step function on their shared state: the
  channel buffer, the wait-group counter and the program points of `main` and
  of the consumer.
-/

namespace GitRecurseStatus

/-! ## Go strings -/

/-- A Go string, as its sequence of code points. -/
abbrev GoString := List Char

/-- The UTF-8 encoding of one code point, bytes as natural numbers. -/
def utf8Bytes (c : Char) : List Nat :=
  let n := c.toNat
  if n < 0x80 then [n]
  else if n < 0x800 then [0xC0 + n / 64, 0x80 + n % 64]
  else if n < 0x10000 then [0xE0 + n / 4096, 0x80 + n / 64 % 64, 0x80 + n % 64]
  else [0xF0 + n / 262144, 0x80 + n / 4096 % 64, 0x80 + n / 64 % 64, 0x80 + n % 64]

/-- The bytes of a Go string. -/
def goBytes : GoString → List Nat
  | [] => []
  | c :: cs => utf8Bytes c ++ goBytes cs

/-- Go `len(s)`: the number of bytes. -/
def goLen (s : GoString) : Nat := (goBytes s).length

/-- Go `s[0:2]`, as bytes. -/
def slice02 (s : GoString) : List Nat := (goBytes s).take 2

/-- Go `unicode.IsSpace`. -/
def isSpace (c : Char) : Bool :=
  let n := c.toNat
  n == 0x09 || n == 0x0A || n == 0x0B || n == 0x0C || n == 0x0D || n == 0x20
    || n == 0x85 || n == 0xA0 || n == 0x1680 || (0x2000 ≤ n && n ≤ 0x200A)
    || n == 0x2028 || n == 0x2029 || n == 0x202F || n == 0x205F || n == 0x3000

/-- Go `strings.TrimSpace`. -/
def TrimSpace (s : GoString) : GoString :=
  ((s.dropWhile isSpace).reverse.dropWhile isSpace).reverse

/-- Go `strings.HasPrefix`. -/
def HasPrefix (s pre : GoString) : Bool := pre.isPrefixOf s

/-- Go `strings.TrimPrefix`. -/
def TrimPrefix (s pre : GoString) : GoString :=
  if HasPrefix s pre then s.drop pre.length else s

/-- Go `strings.Contains`. -/
def Contains : GoString → GoString → Bool
  | [], sub => sub.isEmpty
  | c :: cs, sub => sub.isPrefixOf (c :: cs) || Contains cs sub

/-- Go `strings.Split(s, "\n")`: the pieces between the line feeds. -/
def SplitLines : GoString → List GoString
  | [] => [[]]
  | c :: cs =>
    if c = '\n' then [] :: SplitLines cs
    else match SplitLines cs with
      | [] => [[c]]
      | l :: ls => (c :: l) :: ls

/-- The helper `str.StringInSlice`. -/
def StringInSlice (a : GoString) (list : List GoString) : Bool :=
  list.any (fun b => b == a)

/-! ## Constants and tables -/

def STATUS_DIVERGED : GoString := "diverged".toList
def STATUS_AHEAD : GoString := "ahead".toList
def STATUS_BEHIND : GoString := "behind".toList
def STATUS_UPTODATE : GoString := "uptodate".toList

def MOD_UNKNOWN : GoString := "unknown".toList
def MOD_ADDED : GoString := "added".toList
def MOD_MODIFIED : GoString := "modified".toList
def MOD_REMOVED : GoString := "removed".toList
def MOD_DELETED : GoString := "deleted".toList
def MOD_STASHED : GoString := "stashed".toList
def MOD_CHANGED : GoString := "changed".toList

def FILTER_REMOTE : GoString := "remote".toList

/-- The table `porcelainFlags`. -/
def porcelainFlags : List (GoString × GoString) :=
  [ ("??".toList, MOD_UNKNOWN),
    ("A ".toList, MOD_ADDED),
    ("M ".toList, MOD_ADDED),
    (" M".toList, MOD_MODIFIED),
    ("AM".toList, MOD_MODIFIED),
    (" T".toList, MOD_MODIFIED),
    ("R ".toList, MOD_REMOVED),
    (" D".toList, MOD_DELETED),
    ("D ".toList, MOD_DELETED),
    ("AD".toList, MOD_DELETED) ]

/-- The lookup `porcelainFlags[line[0:2]]`, keys compared as byte strings. -/
def porcelainLookup (key : List Nat) : Option GoString :=
  (porcelainFlags.find? (fun e => goBytes e.1 == key)).map (fun e => e.2)

def collectionStatus : List GoString :=
  [ STATUS_AHEAD, STATUS_BEHIND, STATUS_DIVERGED, STATUS_UPTODATE ]

def collectionModifications : List GoString :=
  [ MOD_ADDED, MOD_UNKNOWN, MOD_REMOVED, MOD_STASHED, MOD_DELETED, MOD_MODIFIED, MOD_CHANGED ]

/-! ## The status record -/

/-- A Go `map[string]bool`. -/
abbrev FlagMap := List (GoString × Bool)

/-- The map read `m[k]`: `false` for an absent key. -/
def FlagMap.get (m : FlagMap) (k : GoString) : Bool :=
  match m.find? (fun e => e.1 == k) with
  | some e => e.2
  | none => false

/-- The map write `m[k] = v`. -/
def FlagMap.set (m : FlagMap) (k : GoString) (v : Bool) : FlagMap :=
  (k, v) :: m.filter (fun e => !(e.1 == k))

/-- The struct `repoStatus`. -/
structure repoStatus where
  Modifications : FlagMap
  Branch : GoString
  Remote : GoString
  RemoteStatus : GoString
  Path : GoString
deriving DecidableEq

/-! ## Filter evaluation -/

/-- The function `andOrAdd`. -/
def andOrAdd (inp or add : Bool) : Bool :=
  if or then inp || add else inp && add

/-- One iteration of the loop of `repoStatus.matches`. -/
def matchesStep (r : repoStatus) (cfgOr : Bool) (acc : Bool) (f : GoString) : Bool :=
  if goLen (TrimSpace f) == 0 then acc
  else
    let expect := !HasPrefix f "no-".toList
    let f := TrimPrefix f "no-".toList
    let m1 :=
      if StringInSlice f collectionStatus then
        andOrAdd acc cfgOr ((r.RemoteStatus == f) == expect)
      else acc
    let m2 :=
      if StringInSlice f collectionModifications then
        andOrAdd m1 cfgOr (r.Modifications.get f == expect)
      else m1
    if f == FILTER_REMOTE then
      andOrAdd m2 cfgOr ((r.Remote != []) == expect)
    else m2

/-- The method `repoStatus.matches`. -/
def repoStatus.matches (r : repoStatus) (cfgOr : Bool) (filters : List GoString) : Bool :=
  filters.foldl (matchesStep r cfgOr) (!cfgOr)

/-! ## The git subprocess -/

/-- A Go `error` value, by its message. -/
abbrev GoError := GoString

/-- What `execGitCommand` returns: the captured standard output and the error
of `cmd.Run()` (`none` for `nil`). -/
structure CmdResult where
  stdout : GoString
  err : Option GoError
deriving DecidableEq

/-- The external tool: working directory and arguments to the result of the run. -/
abbrev GitExec := GoString → List GoString → CmdResult

/-- The function `execGitCommand` (standard error is never captured). -/
def execGitCommand (git : GitExec) (path : GoString) (args : List GoString) : CmdResult :=
  git path args

/-! ## Modification resolution -/

/-- The body of the loop over the lines in `repoStatus.getModifications`. -/
def modificationsLine (r : repoStatus) (line : GoString) : repoStatus :=
  if goLen line < 3 then r
  else if slice02 line == goBytes "##".toList then
    if Contains line "ahead".toList && Contains line "behind".toList then
      { r with RemoteStatus := STATUS_DIVERGED }
    else if Contains line "ahead".toList then
      { r with RemoteStatus := STATUS_AHEAD }
    else if Contains line "behind".toList then
      { r with RemoteStatus := STATUS_BEHIND }
    else
      { r with RemoteStatus := STATUS_UPTODATE }
  else
    match porcelainLookup (slice02 line) with
    | some flag =>
      { r with Modifications := (r.Modifications.set flag true).set MOD_CHANGED true }
    | none => r

/-- The method `repoStatus.getModifications`: the updated receiver and the
returned error. -/
def repoStatus.getModifications (git : GitExec) (r : repoStatus) :
    repoStatus × Option GoError :=
  let res := execGitCommand git r.Path ["status".toList, "--porcelain".toList, "-b".toList]
  match res.err with
  | some e => (r, some e)
  | none =>
    let r1 := (SplitLines res.stdout).foldl modificationsLine r
    let stash := execGitCommand git r1.Path
      ["rev-parse".toList, "--verify".toList, "refs/stash".toList]
    let r2 :=
      match stash.err with
      | none =>
        { r1 with Modifications := (r1.Modifications.set MOD_STASHED true).set MOD_CHANGED true }
      | some _ => r1
    (r2, none)

/-! ## Remote resolution -/

/-- The pieces a pattern anchored at both ends is built from here: literal
text, a greedy `c+` over a character class, and a capturing `(c+)`. -/
inductive Rx where
  | lit (text : GoString)
  | plus (cls : Char → Bool)
  | group (cls : Char → Bool)

/-- Try the lengths `k, k-1, ..., 1` in this order (greedy repetition with
backtracking, at least one character). -/
def firstDown {α : Type} (f : Nat → Option α) : Nat → Option α
  | 0 => none
  | k + 1 =>
    match f (k + 1) with
    | some a => some a
    | none => firstDown f k

/-- Leftmost-first match of `^p$` against `s`; the captured groups on success. -/
def rxMatch : List Rx → GoString → Option (List GoString)
  | [], s => if s.isEmpty then some [] else none
  | Rx.lit t :: rest, s =>
    if t.isPrefixOf s then rxMatch rest (s.drop t.length) else none
  | Rx.plus cls :: rest, s =>
    firstDown (fun k => rxMatch rest (s.drop k)) (s.takeWhile cls).length
  | Rx.group cls :: rest, s =>
    firstDown (fun k => (rxMatch rest (s.drop k)).map (fun caps => s.take k :: caps))
      (s.takeWhile cls).length

/-- The class `\s` of Go regular expressions: `[\t\n\f\r ]`. -/
def rxSpace (c : Char) : Bool :=
  c == '\t' || c == '\n' || c == Char.ofNat 0x0C || c == '\r' || c == ' '

/-- The class `[^ ]`. -/
def rxNotBlank (c : Char) : Bool := c != ' '

/-- The compiled pattern `^origin\s+([^ ]+) \(push\)$`. -/
def rex : List Rx :=
  [Rx.lit "origin".toList, Rx.plus rxSpace, Rx.group rxNotBlank, Rx.lit " (push)".toList]

/-- Go `rex.FindStringSubmatch(line)`: the whole match followed by the
groups, the empty (nil) slice when the line does not match. -/
def FindStringSubmatch (p : List Rx) (line : GoString) : List GoString :=
  match rxMatch p line with
  | some caps => line :: caps
  | none => []

/-- The loop over the lines in `repoStatus.getRemote`, with its early return. -/
def getRemoteLines (r : repoStatus) : List GoString → repoStatus
  | [] => r
  | line :: rest =>
    match FindStringSubmatch rex line with
    | _ :: url :: _ => { r with Remote := url }
    | _ => getRemoteLines r rest

/-- The method `repoStatus.getRemote`. -/
def repoStatus.getRemote (git : GitExec) (r : repoStatus) : repoStatus × Option GoError :=
  let res := execGitCommand git r.Path ["remote".toList, "-v".toList]
  match res.err with
  | some e => (r, some e)
  | none =>
    if goLen (TrimSpace res.stdout) == 0 then (r, none)
    else (getRemoteLines r (SplitLines res.stdout), none)

/-! ## Branch resolution -/

/-- The method `repoStatus.getCurrentBranch`. -/
def repoStatus.getCurrentBranch (git : GitExec) (r : repoStatus) :
    repoStatus × Option GoError :=
  let first := execGitCommand git r.Path ["symbolic-ref".toList, "--quiet".toList, "HEAD".toList]
  let res :=
    match first.err with
    | some _ => execGitCommand git r.Path ["rev-parse".toList, "--short".toList, "HEAD".toList]
    | none => first
  ({ r with Branch := TrimPrefix (TrimSpace res.stdout) "refs/heads/".toList }, res.err)

/-- The fresh record `getRepoStatus` starts from. -/
def freshStatus (path : GoString) : repoStatus :=
  { Modifications := [], Branch := [], Remote := [], RemoteStatus := [], Path := path }

/-! ## The filter language, as the specification words it -/

/-- The recognised filter keywords. -/
inductive Keyword where
  | ahead | behind | diverged | uptodate
  | added | unknown | removed | stashed | deleted | modified | changed
  | remote
deriving DecidableEq

/-- The spelling of a keyword. -/
def Keyword.name : Keyword → GoString
  | .ahead => "ahead".toList
  | .behind => "behind".toList
  | .diverged => "diverged".toList
  | .uptodate => "uptodate".toList
  | .added => "added".toList
  | .unknown => "unknown".toList
  | .removed => "removed".toList
  | .stashed => "stashed".toList
  | .deleted => "deleted".toList
  | .modified => "modified".toList
  | .changed => "changed".toList
  | .remote => "remote".toList

/-- The sync-state keywords. -/
def Keyword.isSync : Keyword → Bool
  | .ahead | .behind | .diverged | .uptodate => true
  | _ => false

/-- The modification keywords. -/
def Keyword.isFlag : Keyword → Bool
  | .added | .unknown | .removed | .stashed | .deleted | .modified | .changed => true
  | _ => false

/-- The raw test of a keyword: sync-state equality for a sync-state keyword,
the flag for a modification keyword, remote presence for `remote`. -/
def Keyword.holds (s : repoStatus) (k : Keyword) : Bool :=
  if k.isSync then s.RemoteStatus == k.name
  else if k.isFlag then s.Modifications.get k.name
  else !s.Remote.isEmpty

/-- A recognised token: an optional `no-` prefix and a keyword. -/
structure FilterToken where
  negated : Bool
  keyword : Keyword
deriving DecidableEq

/-- The text of a token as the user writes it. -/
def FilterToken.text (t : FilterToken) : GoString :=
  (if t.negated then "no-".toList else []) ++ t.keyword.name

/-- The effective test of a token: the raw test, negated under `no-`. -/
def FilterToken.effective (s : repoStatus) (t : FilterToken) : Bool :=
  if t.negated then !t.keyword.holds s else t.keyword.holds s

/-- A token is blank when it is empty or made of white space only. -/
def isBlank (t : GoString) : Bool := t.all isSpace

/-- A token with one leading `no-` removed. -/
def stripNo : GoString → GoString
  | 'n' :: 'o' :: '-' :: rest => rest
  | t => t

/-- The twelve keyword spellings. -/
def keywordNames : List GoString :=
  [ "ahead".toList, "behind".toList, "diverged".toList, "uptodate".toList,
    "added".toList, "unknown".toList, "removed".toList, "stashed".toList,
    "deleted".toList, "modified".toList, "changed".toList, "remote".toList ]

/-- A token that is blank or whose keyword is not recognised. -/
def isInert (t : GoString) : Bool :=
  isBlank t || !keywordNames.contains (stripNo t)

/-! ## A scripted subprocess -/

/-- A git that answers the five commands of the program with fixed results,
whatever the working directory. -/
def scriptedGit (symref revShort remote status stash : CmdResult) : GitExec :=
  fun _ args =>
    if args = ["symbolic-ref".toList, "--quiet".toList, "HEAD".toList] then symref
    else if args = ["rev-parse".toList, "--short".toList, "HEAD".toList] then revShort
    else if args = ["remote".toList, "-v".toList] then remote
    else if args = ["status".toList, "--porcelain".toList, "-b".toList] then status
    else if args = ["rev-parse".toList, "--verify".toList, "refs/stash".toList] then stash
    else { stdout := [], err := some "unknown command".toList }

/-- A run that succeeded with the given standard output. -/
def ranOk (out : String) : CmdResult := { stdout := out.toList, err := none }

/-- A run that failed with exit status 1 and no output. -/
def ranFail : CmdResult := { stdout := [], err := some "exit status 1".toList }

/-- The flag map once `flag` and `changed` have been set in `m`. -/
def withFlag (m : FlagMap) (flag : GoString) : FlagMap :=
  (m.set flag true).set MOD_CHANGED true

/-- The invariant of the loop: `changed` is the disjunction of the six flags. -/
def ChangedInv (m : FlagMap) : Prop :=
  m.get MOD_CHANGED
    = (m.get MOD_UNKNOWN || m.get MOD_ADDED || m.get MOD_MODIFIED || m.get MOD_REMOVED
      || m.get MOD_DELETED || m.get MOD_STASHED)

/-- A repository one commit ahead with one modified file and no stash. -/
def gitAheadDirty : GitExec :=
  scriptedGit (ranOk "refs/heads/main\n") ranFail ranFail
    (ranOk "## main...origin/main [ahead 2]\n M file.txt\n") ranFail

/-- A clean repository without a stash. -/
def gitClean : GitExec :=
  scriptedGit (ranOk "refs/heads/main\n") ranFail (ranOk "")
    (ranOk "## main...origin/main\n") ranFail

/-- A repository whose only change is a file added to the index and then
modified in the work tree; no stash. -/
def gitAddedModified : GitExec :=
  scriptedGit (ranOk "refs/heads/main\n") ranFail (ranOk "")
    (ranOk "AM file.txt\n") ranFail

/-- A repository whose file-status lines carry codes outside the table. -/
def gitUnmappedCodes : GitExec :=
  scriptedGit (ranOk "refs/heads/main\n") ranFail (ranOk "")
    (ranOk "## main\nMM a.txt\nUU b.txt\n A c.txt\n") ranFail

/-- The end-to-end scenario: diverged, one modified and one untracked file,
a stash present. -/
def gitDivergedStash : GitExec :=
  scriptedGit (ranOk "refs/heads/main\n") ranFail
    (ranOk "origin\thttps://example.org/r.git (fetch)\norigin\thttps://example.org/r.git (push)\n")
    (ranOk "## main...origin/main [ahead 2, behind 1]\n M file.txt\n?? new.txt\n")
    (ranOk "3f2a9c1d\n")

/-- A repository on a detached HEAD. -/
def gitDetached : GitExec :=
  scriptedGit ranFail (ranOk "a1b2c3d\n") (ranOk "")
    (ranOk "## HEAD (no branch)\n") ranFail

/-- A character of an abbreviated object name: a lower-case hexadecimal digit. -/
def isHexDigit (c : Char) : Bool :=
  (48 ≤ c.toNat && c.toNat ≤ 57) || (97 ≤ c.toNat && c.toNat ≤ 102)

/-- A string neither starts nor ends with white space. -/
def NoOuterSpace (b : GoString) : Prop :=
  (∀ c, b.head? = some c → isSpace c = false) ∧ (∀ c, b.getLast? = some c → isSpace c = false)

/-! ## The remote listing, as the protocol words it -/

/-- One line of `remote -v`: `<name>\t<url> (fetch)` or `<name>\t<url> (push)`. -/
structure RemoteLine where
  name : GoString
  url : GoString
  push : Bool
deriving DecidableEq

/-- The text of a line of `remote -v`, without its line feed. -/
def RemoteLine.text (l : RemoteLine) : GoString :=
  l.name ++ "\t".toList ++ l.url
    ++ (if l.push then " (push)".toList else " (fetch)".toList)

/-- A string without any white space character. -/
abbrev IsSpaceFree (s : GoString) : Prop := ∀ c ∈ s, isSpace c = false

/-- A line in protocol form: name and URL free of white space, the URL not empty. -/
abbrev RemoteLine.WellFormed (l : RemoteLine) : Prop :=
  IsSpaceFree l.name ∧ IsSpaceFree l.url ∧ l.url ≠ []

/-- The output of `remote -v` for the given lines, each ended by a line feed. -/
def remoteListing : List RemoteLine → GoString
  | [] => []
  | l :: ls => l.text ++ '\n' :: remoteListing ls

/-- The line belongs to the remote named exactly `origin` and is its push line. -/
def isOriginPush (l : RemoteLine) : Bool :=
  l.name == "origin".toList && l.push

/-- The class `\S` of Go regular expressions, the complement of `\s`. -/
def rxNonSpace (c : Char) : Bool := !rxSpace c

/-- The pattern as the specification gives it: `^origin\s+(\S+) \(push\)$`. -/
def rexSpec : List Rx :=
  [Rx.lit "origin".toList, Rx.plus rxSpace, Rx.group rxNonSpace, Rx.lit " (push)".toList]

/-- A repository with the remotes `origin2`, `myorigin` and `origin`, in this order. -/
def gitThreeRemotes : GitExec :=
  scriptedGit (ranOk "refs/heads/main\n") ranFail
    (ranOk "origin2\thttps://example.org/u.git (fetch)\norigin2\thttps://example.org/u.git (push)\nmyorigin\thttps://example.org/m.git (push)\norigin\tgit@example.org:me/r.git (fetch)\norigin\tgit@example.org:me/r.git (push)\n")
    (ranOk "## main\n") ranFail

/-- The lines of `gitThreeRemotes`. -/
def threeRemotesLines : List RemoteLine :=
  [ { name := "origin2".toList, url := "https://example.org/u.git".toList, push := false },
    { name := "origin2".toList, url := "https://example.org/u.git".toList, push := true },
    { name := "myorigin".toList, url := "https://example.org/m.git".toList, push := true },
    { name := "origin".toList, url := "git@example.org:me/r.git".toList, push := false },
    { name := "origin".toList, url := "git@example.org:me/r.git".toList, push := true } ]

/-- A repository whose `origin` push URL contains a tab. -/
def gitTabInUrl : GitExec :=
  scriptedGit (ranOk "refs/heads/main\n") ranFail
    (ranOk "origin\thttps://example.org/a\tb.git (push)\n")
    (ranOk "## main\n") ranFail

/-! ## The whole probe -/

/-- The function `getRepoStatus`: the populated status, or the error of the
first probe that failed (and then no status). -/
def getRepoStatus (git : GitExec) (path : GoString) : Except GoError repoStatus :=
  match (freshStatus path).getCurrentBranch git with
  | (_, some e) => Except.error e
  | (r1, none) =>
    match r1.getRemote git with
    | (_, some e) => Except.error e
    | (r2, none) =>
      match r2.getModifications git with
      | (_, some e) => Except.error e
      | (r3, none) => Except.ok r3

/-- A repository on a detached HEAD whose stash probe fails: `symbolic-ref`
and the stash check fail, every other command succeeds. -/
def gitDetachedNoStash : GitExec :=
  scriptedGit ranFail (ranOk "a1b2c3d\n")
    (ranOk "origin\tgit@example.org:me/r.git (push)\n") (ranOk "## HEAD (no branch)\n") ranFail

/-- A directory in which `remote -v` fails. -/
def gitRemoteFails : GitExec :=
  scriptedGit (ranOk "refs/heads/main\n") ranFail ranFail (ranOk "## main\n") ranFail

/-! ## Emission -/

/-- The test in `main` that decides whether a probed repository is printed:
`rs.matches(cfg.Filter) && strings.Contains(rs.String(), cfg.Search)`.  The
rendering `repoStatus.String` is the argument `render`. -/
def emits (render : repoStatus → GoString) (cfgOr : Bool) (cfgFilter : List GoString)
    (cfgSearch : GoString) (rs : repoStatus) : Bool :=
  rs.matches cfgOr cfgFilter && Contains (render rs) cfgSearch

/-- A token with its `no-` prefix toggled. -/
def FilterToken.toggle (t : FilterToken) : FilterToken :=
  { negated := !t.negated, keyword := t.keyword }

/-- A repository on the branch `feature/ahead`, which has no upstream: the
header carries the branch name only, no tracking information.  No stash. -/
def gitBranchNamedAhead : GitExec :=
  scriptedGit (ranOk "refs/heads/feature/ahead\n") ranFail (ranOk "")
    (ranOk "## feature/ahead\n") ranFail

/-- A repository with one file modified both in the index and in the work
tree, and no stash. -/
def gitBothModified : GitExec :=
  scriptedGit (ranOk "refs/heads/main\n") ranFail (ranOk "")
    (ranOk "## main\nMM a.txt\n") ranFail

/-! ## Traversal -/

/-- Go `strings.HasSuffix`. -/
def HasSuffix (s suf : GoString) : Bool := suf.isSuffixOf s

/-- The elements of a path: the pieces between the separators `/`. -/
def pathElements : GoString → List GoString
  | [] => [[]]
  | c :: cs =>
    if c = '/' then [] :: pathElements cs
    else match pathElements cs with
      | [] => [[c]]
      | e :: es => (c :: e) :: es

/-- One element in the lexical processing of `filepath.Clean`; `stack` holds the
elements kept so far, the last one first. -/
def cleanElement (rooted : Bool) (stack : List GoString) (e : GoString) : List GoString :=
  if e = [] ∨ e = ".".toList then stack
  else if e = "..".toList then
    match stack with
    | [] => if rooted then [] else [e]
    | top :: below => if top = "..".toList then e :: stack else below
  else e :: stack

/-- The elements joined by the separator. -/
def joinElements : List GoString → GoString
  | [] => []
  | [e] => e
  | e :: es => e ++ '/' :: joinElements es

/-- Go `filepath.Clean` on a Unix path: single separators, no `.` elements, no
inner `..` elements, `.` for the empty result. -/
def filepathClean (p : GoString) : GoString :=
  let rooted := p.head? == some '/'
  let body := joinElements ((pathElements p).foldl (cleanElement rooted) []).reverse
  if rooted then '/' :: body
  else if body = [] then ".".toList else body

/-- Go `filepath.Dir`: `Clean` of the path up to and including its last separator. -/
def filepathDir (p : GoString) : GoString :=
  filepathClean (p.reverse.dropWhile (fun c => c != '/')).reverse

/-- Go `filepath.Join` of two elements: empty elements are ignored, the result is cleaned. -/
def filepathJoin (a b : GoString) : GoString :=
  if a = [] then (if b = [] then [] else filepathClean b)
  else if b = [] then filepathClean a
  else filepathClean (a ++ '/' :: b)

/-- The errors a walk function sees and returns: the sentinel `filepath.SkipDir`
or any other error. -/
inductive WalkError where
  | skipDir
  | other (msg : GoString)
deriving DecidableEq

/-- The function `walkerFkt`: what it sends to `traverseResults`, if anything,
and the error it returns.  Of `info` only `IsDir()` is read. -/
def walkerFkt (path : GoString) (isDir : Bool) (err : Option WalkError) :
    Option GoString × Option WalkError :=
  match err with
  | some e => (none, some e)
  | none =>
    if !isDir then (none, none)
    else if HasSuffix path ".git".toList then (some (filepathDir path), none)
    else (none, none)

mutual
/-- A file tree whose entries can all be read. -/
inductive FsNode where
  | file (name : GoString)
  | dir (name : GoString) (children : FsList)
/-- The entries of a directory, in the order `readDirNames` gives them. -/
inductive FsList where
  | nil
  | cons (head : FsNode) (tail : FsList)
end

/-- The name of an entry. -/
def FsNode.name : FsNode → GoString
  | .file n => n
  | .dir n _ => n

/-- Whether an entry is a directory. -/
def FsNode.isDir : FsNode → Bool
  | .file _ => false
  | .dir _ _ => true

/-- What a walk has done so far: the paths handed to the walk function and the
paths sent to the work queue, both in order. -/
structure WalkLog where
  visited : List GoString
  published : List GoString
deriving DecidableEq

/-- Record one call of the walk function. -/
def WalkLog.add (log : WalkLog) (path : GoString) (pub : Option GoString) : WalkLog :=
  { visited := log.visited ++ [path], published := log.published ++ pub.toList }

mutual
/-- Go `filepath.walk` on a readable entry: call the walk function, then descend
into a directory unless the function returned an error. -/
def walkNode (fn : GoString → Bool → Option WalkError → Option GoString × Option WalkError)
    (path : GoString) : FsNode → WalkLog → WalkLog × Option WalkError
  | .file _, log => ((log.add path (fn path false none).1), (fn path false none).2)
  | .dir _ children, log =>
    match (fn path true none).2 with
    | some e => (log.add path (fn path true none).1, some e)
    | none => walkEntries fn path children (log.add path (fn path true none).1)
/-- The loop of `filepath.walk` over the entries of a directory: `SkipDir` from
a directory entry is swallowed, any other error stops the walk. -/
def walkEntries (fn : GoString → Bool → Option WalkError → Option GoString × Option WalkError)
    (path : GoString) : FsList → WalkLog → WalkLog × Option WalkError
  | .nil, log => (log, none)
  | .cons c cs, log =>
    match walkNode fn (filepathJoin path c.name) c log with
    | (log1, some e) =>
      if c.isDir && e == WalkError.skipDir then walkEntries fn path cs log1
      else (log1, some e)
    | (log1, none) => walkEntries fn path cs log1
end

/-- Go `filepath.Walk` on a readable tree rooted at `root`. -/
def filepathWalk (fn : GoString → Bool → Option WalkError → Option GoString × Option WalkError)
    (root : GoString) (tree : FsNode) : WalkLog × Option WalkError :=
  match walkNode fn root tree { visited := [], published := [] } with
  | (log, some WalkError.skipDir) => (log, none)
  | res => res

mutual
/-- Every path of a tree, in walk order. -/
def nodePaths (path : GoString) : FsNode → List GoString
  | .file _ => [path]
  | .dir _ children => path :: entryPaths path children
/-- Every path beneath a directory, in walk order. -/
def entryPaths (path : GoString) : FsList → List GoString
  | .nil => []
  | .cons c cs => nodePaths (filepathJoin path c.name) c ++ entryPaths path cs
end

/-- A work tree `app` with its metadata directory, next to a bare repository
`project.git`, both under `repos`. -/
def treeWithBareRepo : FsNode :=
  .dir ".".toList (.cons
    (.dir "repos".toList (.cons
      (.dir "app".toList (.cons
        (.dir ".git".toList (.cons (.file "HEAD".toList)
          (.cons (.dir "refs".toList .nil) .nil)))
        (.cons (.file "main.go".toList) .nil)))
      (.cons (.dir "project.git".toList (.cons (.file "HEAD".toList) .nil)) .nil)))
    .nil)

/-! ## The pipeline of `main`

The traversal in `main` and the consumer goroutine, as a step function on
the shared state.  One step is one operation on the channel
`traverseResults` or on the wait group, or the probe of one repository. -/

/-- Where `main` stands: in `filepath.Walk`, in the loop on
`len(traverseResults) > 0`, in `wg.Wait()`, or returned (the process is gone). -/
inductive MainPc where
  | walking | polling | waiting | returned
deriving DecidableEq

/-- Where the consumer goroutine stands: at the receive of `range
traverseResults`, holding a received path before `wg.Add(1)`, or between
`wg.Add(1)` and `wg.Done()`. -/
inductive ConsumerPc where
  | receiving
  | received (dir : GoString)
  | probing (dir : GoString)
deriving DecidableEq

/-- The shared state of the two threads. -/
structure Pipeline where
  pending : List GoString
  queue : List GoString
  wg : Nat
  main : MainPc
  consumer : ConsumerPc
  handled : List GoString
deriving DecidableEq

/-- The steps of the two threads. -/
inductive PipelineStep where
  | send | walkDone | sleep | poll | wait
  | receive | add | finish
deriving DecidableEq

/-- The capacity of `traverseResults`. -/
def queueCapacity : Nat := 10

/-- One step; `none` when the step is not enabled.  The consumer takes no step
once `main` has returned. -/
def Pipeline.step (s : Pipeline) : PipelineStep → Option Pipeline
  | .send =>
    match s.main, s.pending with
    | .walking, p :: ps =>
      if s.queue.length < queueCapacity then
        some { s with pending := ps, queue := s.queue ++ [p] }
      else none
    | _, _ => none
  | .walkDone =>
    match s.main, s.pending with
    | .walking, [] => some { s with main := .polling }
    | _, _ => none
  | .sleep =>
    if s.main = .polling ∧ 0 < s.queue.length then some s else none
  | .poll =>
    if s.main = .polling ∧ s.queue.length = 0 then some { s with main := .waiting } else none
  | .wait =>
    if s.main = .waiting ∧ s.wg = 0 then some { s with main := .returned } else none
  | .receive =>
    match s.consumer, s.queue with
    | .receiving, d :: q =>
      if s.main = .returned then none
      else some { s with consumer := .received d, queue := q }
    | _, _ => none
  | .add =>
    match s.consumer with
    | .received d =>
      if s.main = .returned then none
      else some { s with consumer := .probing d, wg := s.wg + 1 }
    | _ => none
  | .finish =>
    match s.consumer with
    | .probing d =>
      if s.main = .returned then none
      else some { s with consumer := .receiving, wg := s.wg - 1, handled := s.handled ++ [d] }
    | _ => none

/-- A schedule run from a state. -/
def Pipeline.run (s : Pipeline) : List PipelineStep → Option Pipeline
  | [] => some s
  | a :: rest =>
    match s.step a with
    | some s1 => s1.run rest
    | none => none

/-- The state in which `main` starts the walk that will publish `roots`. -/
def Pipeline.start (roots : List GoString) : Pipeline :=
  { pending := roots, queue := [], wg := 0, main := .walking, consumer := .receiving,
    handled := [] }

/-- A tree with a single work tree `repo`. -/
def treeOneRepo : FsNode :=
  .dir ".".toList (.cons
    (.dir "repo".toList (.cons
      (.dir ".git".toList (.cons (.file "HEAD".toList) .nil)) .nil))
    .nil)

/-! ## Lemmas on the string primitives -/

theorem utf8Bytes_ne_nil (c : Char) : utf8Bytes c ≠ [] := by
  unfold utf8Bytes
  simp only []
  split_ifs <;> simp

theorem goLen_eq_zero_iff (s : GoString) : goLen s = 0 ↔ s = [] := by
  cases s with
  | nil => simp [goLen, goBytes]
  | cons c cs =>
    have h := utf8Bytes_ne_nil c
    simp [goLen, goBytes, h]

theorem trimSpace_eq_nil_iff (s : GoString) : TrimSpace s = [] ↔ isBlank s = true := by
  unfold TrimSpace isBlank
  rw [List.reverse_eq_nil_iff, List.dropWhile_eq_nil_iff, List.all_eq_true]
  constructor
  · intro h
    have hnil : List.dropWhile isSpace s = [] := by
      cases hd : List.dropWhile isSpace s with
      | nil => rfl
      | cons y ys =>
        have hne : List.dropWhile isSpace s ≠ [] := by simp [hd]
        have hy := List.head_dropWhile_not isSpace s hne
        have hy2 : isSpace ((List.dropWhile isSpace s).head hne) = true :=
          h _ (List.mem_reverse.mpr (List.head_mem hne))
        rw [hy] at hy2
        exact absurd hy2 (by simp)
    exact List.dropWhile_eq_nil_iff.mp hnil
  · intro h x hx
    have hx1 : x ∈ List.dropWhile isSpace s := List.mem_reverse.mp hx
    exact h x ((List.dropWhile_suffix isSpace).subset hx1)

theorem trimPrefix_no (t : GoString) : TrimPrefix t "no-".toList = stripNo t := by
  unfold TrimPrefix HasPrefix
  match t with
  | [] => rfl
  | [a] => by_cases h1 : a = 'n' <;> simp [stripNo, h1, List.isPrefixOf]
  | [a, b] =>
    by_cases h1 : a = 'n' <;> by_cases h2 : b = 'o' <;> simp [stripNo, h1, h2, List.isPrefixOf]
  | a :: b :: c :: rest =>
    have e1 : ('n' = a) = (a = 'n') := propext eq_comm
    have e2 : ('o' = b) = (b = 'o') := propext eq_comm
    have e3 : ('-' = c) = (c = '-') := propext eq_comm
    by_cases h1 : a = 'n' <;> by_cases h2 : b = 'o' <;> by_cases h3 : c = '-' <;>
      simp [stripNo, h1, h2, h3, List.isPrefixOf, e1, e2, e3]

/-! ## Lemmas on bytes and code points -/

theorem char_eq_of_toNat {c d : Char} (h : c.toNat = d.toNat) : c = d := by
  rw [← Char.ofNat_toNat c, ← Char.ofNat_toNat d, h]

theorem utf8Bytes_ascii (c : Char) (h : c.toNat < 128) : utf8Bytes c = [c.toNat] := by
  unfold utf8Bytes
  simp only []
  rw [if_pos h]

/-- A code point whose encoding starts with an ASCII byte is that ASCII
character, encoded in one byte. -/
theorem utf8Bytes_head_ascii (c : Char) (k : Nat) (bs : List Nat) (hk : k < 128)
    (h : utf8Bytes c = k :: bs) : c.toNat = k ∧ bs = [] := by
  unfold utf8Bytes at h
  simp only [] at h
  split_ifs at h with h1 h2 h3
  · simp only [List.cons.injEq] at h
    exact ⟨h.1, h.2.symm⟩
  · simp only [List.cons.injEq] at h
    omega
  · simp only [List.cons.injEq] at h
    omega
  · simp only [List.cons.injEq] at h
    omega

/-- The first two bytes of a string are two given ASCII bytes exactly when the
string starts with the two ASCII characters. -/
theorem slice02_ascii_iff (a b : Char) (ha : a.toNat < 128) (hb : b.toNat < 128)
    (l : GoString) : slice02 l = [a.toNat, b.toNat] ↔ ∃ rest, l = a :: b :: rest := by
  constructor
  · intro h
    unfold slice02 at h
    cases l with
    | nil => simp [goBytes] at h
    | cons c t =>
      rw [goBytes] at h
      cases hc : utf8Bytes c with
      | nil => exact absurd hc (utf8Bytes_ne_nil c)
      | cons b0 bs0 =>
        rw [hc] at h
        simp only [List.cons_append, List.take_succ_cons, List.cons.injEq] at h
        obtain ⟨h0, h1⟩ := h
        subst h0
        obtain ⟨hca, hbs⟩ := utf8Bytes_head_ascii c _ bs0 ha hc
        subst hbs
        have hc' : c = a := char_eq_of_toNat hca
        subst hc'
        cases t with
        | nil => simp [goBytes] at h1
        | cons d u =>
          rw [goBytes] at h1
          cases hd : utf8Bytes d with
          | nil => exact absurd hd (utf8Bytes_ne_nil d)
          | cons b1 bs1 =>
            rw [hd] at h1
            simp only [List.nil_append, List.cons_append, List.take_succ_cons,
              List.cons.injEq] at h1
            obtain ⟨h2, _⟩ := h1
            subst h2
            obtain ⟨hdb, _⟩ := utf8Bytes_head_ascii d _ bs1 hb hd
            have hd' : d = b := char_eq_of_toNat hdb
            subst hd'
            exact ⟨u, rfl⟩
  · rintro ⟨rest, rfl⟩
    unfold slice02
    rw [goBytes, goBytes, utf8Bytes_ascii a ha, utf8Bytes_ascii b hb]
    rfl

theorem hasPrefix_pair_iff (a b : Char) (l : GoString) :
    HasPrefix l [a, b] = true ↔ ∃ rest, l = a :: b :: rest := by
  unfold HasPrefix
  rw [List.isPrefixOf_iff_prefix]
  constructor
  · rintro ⟨t, ht⟩
    exact ⟨t, ht.symm⟩
  · rintro ⟨t, rfl⟩
    exact ⟨t, rfl⟩

/-- Comparing `line[0:2]` with a key of two ASCII characters is a prefix test. -/
theorem slice02_beq_ascii (a b : Char) (ha : a.toNat < 128) (hb : b.toNat < 128)
    (l : GoString) : (goBytes [a, b] == slice02 l) = HasPrefix l [a, b] := by
  have hkey : goBytes [a, b] = [a.toNat, b.toNat] := by
    rw [goBytes, goBytes, utf8Bytes_ascii a ha, utf8Bytes_ascii b hb]
    rfl
  rw [hkey, Bool.eq_iff_iff, hasPrefix_pair_iff, ← slice02_ascii_iff a b ha hb l]
  simp only [beq_iff_eq]
  exact eq_comm

theorem slice02_header (l : GoString) :
    (slice02 l == goBytes "##".toList) = HasPrefix l "##".toList := by
  have h := slice02_beq_ascii '#' '#' (by decide) (by decide) l
  show (slice02 l == goBytes ['#', '#']) = HasPrefix l ['#', '#']
  rw [← h, Bool.eq_iff_iff]
  simp only [beq_iff_eq]
  exact eq_comm

theorem find?_congr_mem {α : Type} (p q : α → Bool) (l : List α)
    (h : ∀ x ∈ l, p x = q x) : l.find? p = l.find? q := by
  induction l with
  | nil => rfl
  | cons a t ih =>
    rw [List.find?_cons, List.find?_cons, h a (List.mem_cons_self a t),
      ih (fun x hx => h x (List.mem_cons_of_mem a hx))]

/-- The table lookup on `line[0:2]`, read on code points: the first entry whose
code the line starts with. -/
theorem porcelainLookup_slice02 (l : GoString) :
    porcelainLookup (slice02 l)
      = (porcelainFlags.find? (fun e => HasPrefix l e.1)).map (fun e => e.2) := by
  unfold porcelainLookup
  congr 1
  apply find?_congr_mem
  intro e he
  have hall : ∀ e ∈ porcelainFlags, e.1.length = 2 ∧ ∀ c ∈ e.1, c.toNat < 128 := by
    decide
  obtain ⟨hlen2, hascii⟩ := hall e he
  obtain ⟨a, b, hab⟩ : ∃ a b : Char, e.1 = [a, b] := by
    match h1 : e.1, hlen2 with
    | [a, b], _ => exact ⟨a, b, rfl⟩
  have ha : a.toNat < 128 := hascii a (by rw [hab]; simp)
  have hb : b.toNat < 128 := hascii b (by rw [hab]; simp)
  rw [hab]
  exact slice02_beq_ascii a b ha hb l

/-! ## Lemmas on the flag map -/

theorem FlagMap.get_set (m : FlagMap) (k : GoString) (v : Bool) (x : GoString) :
    (m.set k v).get x = if x = k then v else m.get x := by
  unfold FlagMap.get FlagMap.set
  by_cases hx : x = k
  · subst hx
    simp
  · have hkx : (k == x) = false := by
      simp only [beq_eq_false_iff_ne, ne_eq]
      exact fun h => hx h.symm
    rw [if_neg hx, List.find?_cons, hkx, List.find?_filter]
    have hc : List.find? (fun a => decide ((!(a.1 == k)) = true ∧ (a.1 == x) = true)) m
        = List.find? (fun e => e.1 == x) m := by
      apply find?_congr_mem
      intro e _
      by_cases hex : e.1 = x
      · have : ¬ e.1 = k := fun h => hx (hex.symm.trans h)
        simp [hex, hx]
      · simp [hex]
    rw [hc]

theorem withFlag_get (m : FlagMap) (flag x : GoString) :
    (withFlag m flag).get x = (x == flag || x == MOD_CHANGED || m.get x) := by
  unfold withFlag
  rw [FlagMap.get_set, FlagMap.get_set]
  by_cases h1 : x = MOD_CHANGED <;> by_cases h2 : x = flag <;> simp [h1, h2]

/-! ## Lemmas on the modification loop -/

theorem modificationsLine_short (r : repoStatus) (l : GoString) (h : goLen l < 3) :
    modificationsLine r l = r := by
  unfold modificationsLine
  rw [if_pos h]

theorem modificationsLine_header (r : repoStatus) (l : GoString)
    (hh : HasPrefix l "##".toList = true) (hlen : 3 ≤ goLen l) :
    modificationsLine r l
      = { r with RemoteStatus :=
            if (Contains l "ahead".toList && Contains l "behind".toList) = true then
              STATUS_DIVERGED
            else if Contains l "ahead".toList = true then STATUS_AHEAD
            else if Contains l "behind".toList = true then STATUS_BEHIND
            else STATUS_UPTODATE } := by
  unfold modificationsLine
  rw [if_neg (Nat.not_lt.mpr hlen), slice02_header, hh]
  simp only [if_true]
  split_ifs <;> rfl

theorem modificationsLine_file (r : repoStatus) (l : GoString)
    (hh : HasPrefix l "##".toList = false) (hlen : 3 ≤ goLen l) :
    modificationsLine r l
      = match (porcelainFlags.find? (fun e => HasPrefix l e.1)).map (fun e => e.2) with
        | some flag => { r with Modifications := withFlag r.Modifications flag }
        | none => r := by
  unfold modificationsLine
  rw [if_neg (Nat.not_lt.mpr hlen), slice02_header, hh, porcelainLookup_slice02]
  simp only [Bool.false_eq_true, if_false]
  rfl

theorem modificationsLine_path (r : repoStatus) (l : GoString) :
    (modificationsLine r l).Path = r.Path := by
  unfold modificationsLine
  split_ifs <;> try rfl
  split <;> rfl

theorem foldl_modificationsLine_path (ls : List GoString) (r : repoStatus) :
    (ls.foldl modificationsLine r).Path = r.Path := by
  induction ls generalizing r with
  | nil => rfl
  | cons l t ih => rw [List.foldl_cons, ih, modificationsLine_path]

theorem modificationsLine_remoteStatus (r : repoStatus) (l : GoString)
    (hh : HasPrefix l "##".toList = false) :
    (modificationsLine r l).RemoteStatus = r.RemoteStatus := by
  by_cases hlen : goLen l < 3
  · rw [modificationsLine_short r l hlen]
  · rw [modificationsLine_file r l hh (Nat.not_lt.mp hlen)]
    split <;> rfl

theorem foldl_modificationsLine_remoteStatus (ls : List GoString) (r : repoStatus)
    (h : ∀ l ∈ ls, HasPrefix l "##".toList = false) :
    (ls.foldl modificationsLine r).RemoteStatus = r.RemoteStatus := by
  induction ls generalizing r with
  | nil => rfl
  | cons l t ih =>
    rw [List.foldl_cons, ih _ (fun x hx => h x (List.mem_cons_of_mem l hx)),
      modificationsLine_remoteStatus r l (h l (List.mem_cons_self l t))]

/-- When the status command succeeds, `getModifications` is the fold over the
lines followed by the stash probe, and it returns no error. -/
theorem getModifications_ok (git : GitExec) (r : repoStatus) (out : GoString)
    (hgit : execGitCommand git r.Path
      ["status".toList, "--porcelain".toList, "-b".toList] = { stdout := out, err := none }) :
    r.getModifications git
      = (match (execGitCommand git r.Path
            ["rev-parse".toList, "--verify".toList, "refs/stash".toList]).err with
          | none =>
            { (SplitLines out).foldl modificationsLine r with
              Modifications :=
                withFlag ((SplitLines out).foldl modificationsLine r).Modifications
                  MOD_STASHED }
          | some _ => (SplitLines out).foldl modificationsLine r, none) := by
  unfold repoStatus.getModifications
  simp only [hgit, foldl_modificationsLine_path]
  rfl

theorem getModifications_remoteStatus (git : GitExec) (r : repoStatus) (out : GoString)
    (hgit : execGitCommand git r.Path
      ["status".toList, "--porcelain".toList, "-b".toList] = { stdout := out, err := none }) :
    (r.getModifications git).1.RemoteStatus
      = ((SplitLines out).foldl modificationsLine r).RemoteStatus := by
  rw [getModifications_ok git r out hgit]
  split <;> rfl

/-- The invariant tying `changed` to the six other flags. -/
theorem changedInv_withFlag (m : FlagMap) (flag : GoString)
    (hflag : flag ∈ [ MOD_UNKNOWN, MOD_ADDED, MOD_MODIFIED, MOD_REMOVED, MOD_DELETED,
      MOD_STASHED])
    : (withFlag m flag).get MOD_CHANGED
      = ((withFlag m flag).get MOD_UNKNOWN || (withFlag m flag).get MOD_ADDED
        || (withFlag m flag).get MOD_MODIFIED || (withFlag m flag).get MOD_REMOVED
        || (withFlag m flag).get MOD_DELETED || (withFlag m flag).get MOD_STASHED) := by
  simp only [withFlag_get]
  simp only [List.mem_cons, List.mem_singleton, List.not_mem_nil, or_false] at hflag
  rcases hflag with rfl | rfl | rfl | rfl | rfl | rfl <;> simp

theorem porcelainFlags_values (l : GoString) (flag : GoString)
    (h : (porcelainFlags.find? (fun e => HasPrefix l e.1)).map (fun e => e.2) = some flag) :
    flag ∈ [ MOD_UNKNOWN, MOD_ADDED, MOD_MODIFIED, MOD_REMOVED, MOD_DELETED, MOD_STASHED] := by
  rw [Option.map_eq_some'] at h
  obtain ⟨e, he, hflag⟩ := h
  have hmem := List.mem_of_find?_eq_some he
  subst hflag
  have hall : ∀ x ∈ porcelainFlags,
      x.2 ∈ [ MOD_UNKNOWN, MOD_ADDED, MOD_MODIFIED, MOD_REMOVED, MOD_DELETED,
        MOD_STASHED] := by
    decide
  exact hall e hmem

theorem modificationsLine_changedInv (r : repoStatus) (l : GoString)
    (h : ChangedInv r.Modifications) : ChangedInv (modificationsLine r l).Modifications := by
  by_cases hlen : goLen l < 3
  · rw [modificationsLine_short r l hlen]
    exact h
  · by_cases hh : HasPrefix l "##".toList = true
    · rw [modificationsLine_header r l hh (Nat.not_lt.mp hlen)]
      exact h
    · have hh2 : HasPrefix l "##".toList = false := by simpa using hh
      rw [modificationsLine_file r l hh2 (Nat.not_lt.mp hlen)]
      split
      · rename_i flag hflag
        exact changedInv_withFlag _ flag (porcelainFlags_values l flag hflag)
      · exact h

theorem foldl_modificationsLine_changedInv (ls : List GoString) (r : repoStatus)
    (h : ChangedInv r.Modifications) :
    ChangedInv (ls.foldl modificationsLine r).Modifications := by
  induction ls generalizing r with
  | nil => exact h
  | cons l t ih =>
    rw [List.foldl_cons]
    exact ih _ (modificationsLine_changedInv r l h)

theorem getModifications_changedInv (git : GitExec) (r : repoStatus)
    (h : ChangedInv r.Modifications) :
    ChangedInv (r.getModifications git).1.Modifications := by
  cases hres : execGitCommand git r.Path
      ["status".toList, "--porcelain".toList, "-b".toList] with
  | mk out err =>
    cases err with
    | some e =>
      unfold repoStatus.getModifications
      simp only [hres]
      exact h
    | none =>
      rw [getModifications_ok git r out hres]
      split
      · exact changedInv_withFlag _ MOD_STASHED (by simp)
      · exact foldl_modificationsLine_changedInv _ r h

/-! ## Lemmas on lines -/

theorem length_le_goLen (l : GoString) : l.length ≤ goLen l := by
  unfold goLen
  induction l with
  | nil => simp [goBytes]
  | cons c t ih =>
    have hc : 1 ≤ (utf8Bytes c).length := by
      cases h : utf8Bytes c with
      | nil => exact absurd h (utf8Bytes_ne_nil c)
      | cons a u => simp
    rw [goBytes, List.length_append, List.length_cons]
    omega

theorem splitLines_append_newline (l t : GoString) (h : '\n' ∉ l) :
    SplitLines (l ++ '\n' :: t) = l :: SplitLines t := by
  induction l with
  | nil => simp [SplitLines]
  | cons c u ih =>
    have hc : c ≠ '\n' := fun e => h (by simp [e])
    have hu : '\n' ∉ u := fun e => h (List.mem_cons_of_mem c e)
    rw [List.cons_append, SplitLines, if_neg hc, ih hu]

/-- A line that starts with a code of the table and goes on after it sets the
flag of that code and `changed`, and nothing else. -/
theorem modificationsLine_entry (r : repoStatus) (rest : GoString) (hrest : rest ≠ [])
    (e : GoString × GoString) (he : e ∈ porcelainFlags) :
    modificationsLine r (e.1 ++ rest)
      = { r with Modifications := withFlag r.Modifications e.2 } := by
  have hrl : 1 ≤ rest.length := by
    cases rest with
    | nil => exact absurd rfl hrest
    | cons a u => simp
  unfold porcelainFlags at he
  fin_cases he <;>
  · rw [modificationsLine_file]
    · simp [porcelainFlags, HasPrefix, String.toList]
    · simp [HasPrefix, String.toList, List.isPrefixOf]
    · refine le_trans ?_ (length_le_goLen _)
      simp only [String.toList, List.length_append, List.length_cons, List.length_nil]
      omega

theorem modificationsLine_code (r : repoStatus) (code flag rest : GoString)
    (hcode : (code, flag) ∈ porcelainFlags) (hrest : rest ≠ []) :
    modificationsLine r (code ++ rest)
      = { r with Modifications := withFlag r.Modifications flag } :=
  modificationsLine_entry r rest hrest (code, flag) hcode

theorem porcelainFlags_no_newline (e : GoString × GoString) (he : e ∈ porcelainFlags) :
    '\n' ∉ e.1 := by
  have hall : ∀ x ∈ porcelainFlags, '\n' ∉ x.1 := by decide
  exact hall e he

theorem porcelainFlags_AM (e : GoString × GoString) (he : e ∈ porcelainFlags)
    (h : e.1 = "AM".toList) : e.2 = "modified".toList := by
  have hall : ∀ x ∈ porcelainFlags, x.1 = "AM".toList → x.2 = "modified".toList := by
    decide
  exact hall e he h

theorem porcelainFlags_AD (e : GoString × GoString) (he : e ∈ porcelainFlags)
    (h : e.1 = "AD".toList) : e.2 = "deleted".toList := by
  have hall : ∀ x ∈ porcelainFlags, x.1 = "AD".toList → x.2 = "deleted".toList := by
    decide
  exact hall e he h

/-- A line that starts with no code of the table leaves the flags as they are. -/
theorem modificationsLine_unmapped (r : repoStatus) (l : GoString)
    (h : ∀ e ∈ porcelainFlags, HasPrefix l e.1 = false) :
    (modificationsLine r l).Modifications = r.Modifications := by
  by_cases hlen : goLen l < 3
  · rw [modificationsLine_short r l hlen]
  · by_cases hh : HasPrefix l "##".toList = true
    · rw [modificationsLine_header r l hh (Nat.not_lt.mp hlen)]
    · have hh2 : HasPrefix l "##".toList = false := by simpa using hh
      have hnone : porcelainFlags.find? (fun e => HasPrefix l e.1) = none := by
        rw [List.find?_eq_none]
        intro e he
        rw [h e he]
        simp
      rw [modificationsLine_file r l hh2 (Nat.not_lt.mp hlen), hnone]
      rfl

theorem foldl_modificationsLine_unmapped (ls : List GoString) (r : repoStatus)
    (h : ∀ l ∈ ls, 3 ≤ goLen l → ∀ e ∈ porcelainFlags, HasPrefix l e.1 = false) :
    (ls.foldl modificationsLine r).Modifications = r.Modifications := by
  induction ls generalizing r with
  | nil => rfl
  | cons l t ih =>
    rw [List.foldl_cons, ih _ (fun x hx => h x (List.mem_cons_of_mem l hx))]
    by_cases hlen : goLen l < 3
    · rw [modificationsLine_short r l hlen]
    · exact modificationsLine_unmapped r l
        (h l (List.mem_cons_self l t) (Nat.not_lt.mp hlen))

/-! ## Lemmas on trimming -/

theorem dropWhile_head_false (p : Char → Bool) (l : GoString)
    (h : ∀ c, l.head? = some c → p c = false) : l.dropWhile p = l := by
  cases l with
  | nil => rfl
  | cons a t =>
    have ha : p a = false := h a rfl
    rw [List.dropWhile_cons, ha]
    simp

/-- Trimming removes the final line feed of a string that has no white space at
either end. -/
theorem trimSpace_append_newline (x : GoString) (hx : NoOuterSpace x) :
    TrimSpace (x ++ "\n".toList) = x := by
  cases x with
  | nil => rfl
  | cons a t =>
    unfold TrimSpace
    have h1 : List.dropWhile isSpace (a :: t ++ "\n".toList) = a :: t ++ "\n".toList := by
      apply dropWhile_head_false
      intro c hc
      apply hx.1 c
      simpa using hc
    have h2 : (a :: t ++ "\n".toList).reverse = '\n' :: (a :: t).reverse := by
      simp [String.toList]
    have h3 : List.dropWhile isSpace ((a :: t).reverse) = (a :: t).reverse := by
      apply dropWhile_head_false
      intro c hc
      apply hx.2 c
      rw [List.head?_reverse] at hc
      exact hc
    have h4 : isSpace '\n' = true := by decide
    rw [h1, h2, List.dropWhile_cons, h4, if_pos rfl, h3, List.reverse_reverse]

theorem trimPrefix_append (pre b : GoString) : TrimPrefix (pre ++ b) pre = b := by
  unfold TrimPrefix HasPrefix
  have h : pre.isPrefixOf (pre ++ b) = true := by
    rw [List.isPrefixOf_iff_prefix]
    exact List.prefix_append pre b
  rw [if_pos h, List.drop_left]

theorem isHexDigit_not_space (c : Char) (h : isHexDigit c = true) : isSpace c = false := by
  unfold isHexDigit at h
  unfold isSpace
  simp only [Bool.or_eq_true, Bool.and_eq_true, decide_eq_true_eq] at h
  simp only [Bool.or_eq_false_iff, Bool.and_eq_false_imp, beq_eq_false_iff_ne, ne_eq,
    decide_eq_true_eq, decide_eq_false_iff_not]
  omega

theorem hex_noOuterSpace (id : GoString) (h : ∀ c ∈ id, isHexDigit c = true) :
    NoOuterSpace id := by
  constructor
  · intro c hc
    exact isHexDigit_not_space c (h c (List.mem_of_mem_head? hc))
  · intro c hc
    exact isHexDigit_not_space c (h c (List.mem_of_getLast?_eq_some hc))

theorem hex_trimPrefix_refs (id : GoString) (h : ∀ c ∈ id, isHexDigit c = true) :
    TrimPrefix id "refs/heads/".toList = id := by
  unfold TrimPrefix HasPrefix
  cases id with
  | nil => rfl
  | cons a t =>
    have ha : isHexDigit a = true := h a (List.mem_cons_self a t)
    have hne : ('r' == a) = false := by
      rw [beq_eq_false_iff_ne]
      intro e
      rw [← e] at ha
      exact absurd ha (by decide)
    have hp : "refs/heads/".toList.isPrefixOf (a :: t) = false := by
      show List.isPrefixOf ('r' :: "efs/heads/".toList) (a :: t) = false
      rw [List.isPrefixOf, hne]
      rfl
    rw [hp]
    rfl

theorem FlagMap.get_cons (a : GoString) (v : Bool) (m : FlagMap) (k : GoString) :
    FlagMap.get ((a, v) :: m) k = if a = k then v else FlagMap.get m k := by
  unfold FlagMap.get
  rw [List.find?_cons]
  by_cases h : a = k
  · have hb : (a == k) = true := by simp [h]
    rw [if_pos h]
    simp only [hb]
  · have hb : (a == k) = false := by simp [h]
    rw [if_neg h]
    simp only [hb]

theorem refs_heads_noOuterSpace (b : GoString) (hb : NoOuterSpace b) :
    NoOuterSpace ("refs/heads/".toList ++ b) := by
  constructor
  · intro c hc
    have h : c = 'r' := by
      have : ("refs/heads/".toList ++ b).head? = some 'r' := rfl
      rw [this] at hc
      exact (Option.some.inj hc).symm
    rw [h]
    decide
  · intro c hc
    rw [List.getLast?_append] at hc
    cases hl : b.getLast? with
    | none =>
      rw [hl] at hc
      have h : c = '/' := (Option.some.inj hc).symm
      rw [h]
      decide
    | some d =>
      rw [hl] at hc
      have h : d = c := Option.some.inj hc
      exact hb.2 c (by rw [hl, h])

/-! ## Lemmas on the filter fold -/

theorem token_text_nonblank (t : FilterToken) :
    (goLen (TrimSpace t.text) == 0) = false := by
  rcases t with ⟨n, k⟩
  cases n <;> cases k <;> decide

theorem token_hasPrefix (t : FilterToken) : HasPrefix t.text "no-".toList = t.negated := by
  rcases t with ⟨n, k⟩
  cases n <;> cases k <;> decide

theorem token_trimPrefix (t : FilterToken) :
    TrimPrefix t.text "no-".toList = t.keyword.name := by
  rcases t with ⟨n, k⟩
  cases n <;> cases k <;> decide

theorem name_inStatus (k : Keyword) :
    StringInSlice k.name collectionStatus = k.isSync := by
  cases k <;> decide

theorem name_inModifications (k : Keyword) :
    StringInSlice k.name collectionModifications = k.isFlag := by
  cases k <;> decide

theorem name_isRemote (k : Keyword) :
    (k.name == FILTER_REMOTE) = (!k.isSync && !k.isFlag) := by
  cases k <;> decide

theorem bne_nil_eq (l : GoString) : (l != []) = !l.isEmpty := by
  cases l <;> rfl

/-- On a recognised token the loop body of `matches` folds in exactly the
effective test of the token. -/
theorem matchesStep_token (s : repoStatus) (cfgOr acc : Bool) (t : FilterToken) :
    matchesStep s cfgOr acc t.text = andOrAdd acc cfgOr (t.effective s) := by
  unfold matchesStep
  rw [token_text_nonblank, token_hasPrefix]
  simp only [token_trimPrefix, name_inStatus, name_inModifications, name_isRemote, bne_nil_eq]
  rcases t with ⟨n, k⟩
  cases k <;> cases n <;> cases cfgOr <;> cases acc <;>
    simp [FilterToken.effective, Keyword.holds, andOrAdd, Keyword.isSync, Keyword.isFlag]

theorem foldl_matchesStep_tokens (s : repoStatus) (cfgOr : Bool) (toks : List FilterToken)
    (acc : Bool) :
    (toks.map FilterToken.text).foldl (matchesStep s cfgOr) acc
      = if cfgOr then (acc || toks.any (FilterToken.effective s))
        else (acc && toks.all (FilterToken.effective s)) := by
  induction toks generalizing acc with
  | nil => cases cfgOr <;> simp
  | cons t ts ih =>
    rw [List.map_cons, List.foldl_cons, ih, matchesStep_token]
    cases cfgOr <;> simp [andOrAdd, Bool.and_assoc, Bool.or_assoc]

/-- An inert token leaves the running result of `matches` unchanged. -/
theorem matchesStep_inert (s : repoStatus) (cfgOr acc : Bool) (t : GoString)
    (h : isInert t = true) : matchesStep s cfgOr acc t = acc := by
  unfold matchesStep
  by_cases hb : isBlank t = true
  · have h0 : goLen (TrimSpace t) = 0 := by
      rw [goLen_eq_zero_iff]
      exact (trimSpace_eq_nil_iff t).mpr hb
    simp [h0]
  · have hk : keywordNames.contains (stripNo t) = false := by
      unfold isInert at h
      simp only [Bool.or_eq_true, Bool.not_eq_true'] at h
      rcases h with h | h
      · exact absurd h hb
      · exact h
    have hne : ∀ x ∈ keywordNames, ¬ (stripNo t = x) := by
      intro x hx hEq
      have : keywordNames.contains (stripNo t) = true := by
        rw [List.contains_iff_exists_mem_beq]
        exact ⟨x, hx, by simp [hEq]⟩
      rw [hk] at this
      exact absurd this (by simp)
    have hS : StringInSlice (stripNo t) collectionStatus = false := by
      unfold StringInSlice
      rw [List.any_eq_false]
      intro x hx
      have hx2 : x ∈ keywordNames := by
        revert x
        decide
      have := hne x hx2
      simp only [beq_iff_eq, ne_eq]
      exact fun h => this h.symm
    have hM : StringInSlice (stripNo t) collectionModifications = false := by
      unfold StringInSlice
      rw [List.any_eq_false]
      intro x hx
      have hx2 : x ∈ keywordNames := by
        revert x
        decide
      have := hne x hx2
      simp only [beq_iff_eq, ne_eq]
      exact fun h => this h.symm
    have hR : (stripNo t == FILTER_REMOTE) = false := by
      have := hne FILTER_REMOTE (by decide)
      simpa using this
    simp only [trimPrefix_no, hS, hM, hR]
    simp

theorem foldl_matchesStep_filter (s : repoStatus) (cfgOr : Bool) (fs : List GoString)
    (acc : Bool) :
    fs.foldl (matchesStep s cfgOr) acc
      = (fs.filter (fun t => !isInert t)).foldl (matchesStep s cfgOr) acc := by
  induction fs generalizing acc with
  | nil => rfl
  | cons t ts ih =>
    by_cases h : isInert t = true
    · rw [List.foldl_cons, matchesStep_inert s cfgOr acc t h, ih]
      simp [List.filter_cons, h]
    · have h2 : isInert t = false := by simpa using h
      rw [List.foldl_cons, ih]
      simp [List.filter_cons, h2]

/-! ## Filter evaluation: the claims -/

/-- C1: on a filter list made of recognised tokens only, `matches` under AND
mode is true exactly when the effective test of every token holds, and under
OR mode exactly when the effective test of at least one token holds; in
particular `["ahead", "no-remote"]` matches under AND exactly the statuses
that are ahead and have an empty remote, and under OR exactly those that are
ahead or have an empty remote. -/
theorem C1_matches_recognised_tokens (s : repoStatus) (toks : List FilterToken) :
    (s.matches false (toks.map FilterToken.text) = true
        ↔ ∀ t ∈ toks, t.effective s = true)
    ∧ (s.matches true (toks.map FilterToken.text) = true
        ↔ ∃ t ∈ toks, t.effective s = true)
    ∧ (s.matches false ["ahead".toList, "no-remote".toList] = true
        ↔ (s.RemoteStatus = "ahead".toList ∧ s.Remote = []))
    ∧ (s.matches true ["ahead".toList, "no-remote".toList] = true
        ↔ (s.RemoteStatus = "ahead".toList ∨ s.Remote = [])) := by
  have hpair : ["ahead".toList, "no-remote".toList]
      = ([⟨false, .ahead⟩, ⟨true, .remote⟩] : List FilterToken).map FilterToken.text := rfl
  refine ⟨?_, ?_, ?_, ?_⟩
  · unfold repoStatus.matches
    rw [foldl_matchesStep_tokens]
    simp
  · unfold repoStatus.matches
    rw [foldl_matchesStep_tokens]
    simp
  · unfold repoStatus.matches
    rw [hpair, foldl_matchesStep_tokens]
    simp [FilterToken.effective, Keyword.holds, Keyword.isSync, Keyword.isFlag, Keyword.name]
  · unfold repoStatus.matches
    rw [hpair, foldl_matchesStep_tokens]
    simp [FilterToken.effective, Keyword.holds, Keyword.isSync, Keyword.isFlag, Keyword.name]

/-- C2: negation round-trip.  For every status and every recognised keyword
`X`, `matches` on `["no-X"]` under AND mode is the boolean negation of
`matches` on `["X"]` under AND mode. -/
theorem C2_negation_round_trip (s : repoStatus) (k : Keyword) :
    s.matches false ["no-".toList ++ k.name] = !(s.matches false [k.name]) := by
  have h1 : ["no-".toList ++ k.name]
      = ([⟨true, k⟩] : List FilterToken).map FilterToken.text := rfl
  have h2 : [k.name] = ([⟨false, k⟩] : List FilterToken).map FilterToken.text := rfl
  unfold repoStatus.matches
  rw [h1, h2, foldl_matchesStep_tokens, foldl_matchesStep_tokens]
  simp [FilterToken.effective]

/-- C3: blank and unrecognised tokens are no-ops.  In either combine mode
`matches` gives the same result on a filter list and on the list with every
blank token and every token with an unrecognised keyword removed; in
particular `["", "bogus-keyword"]` matches every status under AND mode. -/
theorem C3_inert_tokens_are_noops (s : repoStatus) (cfgOr : Bool) (fs : List GoString) :
    s.matches cfgOr fs = s.matches cfgOr (fs.filter (fun t => !isInert t))
    ∧ s.matches false ["".toList, "bogus-keyword".toList] = true := by
  constructor
  · unfold repoStatus.matches
    exact foldl_matchesStep_filter s cfgOr fs (!cfgOr)
  · have h : s.matches false ["".toList, "bogus-keyword".toList]
        = s.matches false
            (["".toList, "bogus-keyword".toList].filter (fun t => !isInert t)) := by
      unfold repoStatus.matches
      exact foldl_matchesStep_filter s false _ _
    rw [h]
    rfl

/-! ## Modification resolution: the claims -/

/-- C4: the sync state computed by `getModifications` is determined by the
header line of the porcelain output (a line of the form `## <description>`,
after which no further line begins with `##`): diverged if the header
contains both "ahead" and "behind", ahead if it contains "ahead" but not
"behind", behind if it contains "behind" but not "ahead", uptodate if it
contains neither. -/
theorem C4_sync_state_from_header (git : GitExec) (r : repoStatus) (out : GoString)
    (pre post : List GoString) (h : GoString)
    (hgit : execGitCommand git r.Path
      ["status".toList, "--porcelain".toList, "-b".toList] = { stdout := out, err := none })
    (hlines : SplitLines out = pre ++ h :: post)
    (hh : HasPrefix h "##".toList = true) (hlen : 3 ≤ goLen h)
    (hpost : ∀ l ∈ post, HasPrefix l "##".toList = false) :
    (Contains h "ahead".toList = true ∧ Contains h "behind".toList = true →
        (r.getModifications git).1.RemoteStatus = "diverged".toList)
    ∧ (Contains h "ahead".toList = true ∧ Contains h "behind".toList = false →
        (r.getModifications git).1.RemoteStatus = "ahead".toList)
    ∧ (Contains h "ahead".toList = false ∧ Contains h "behind".toList = true →
        (r.getModifications git).1.RemoteStatus = "behind".toList)
    ∧ (Contains h "ahead".toList = false ∧ Contains h "behind".toList = false →
        (r.getModifications git).1.RemoteStatus = "uptodate".toList) := by
  have hst : (r.getModifications git).1.RemoteStatus
      = (modificationsLine (pre.foldl modificationsLine r) h).RemoteStatus := by
    rw [getModifications_remoteStatus git r out hgit, hlines, List.foldl_append,
      List.foldl_cons, foldl_modificationsLine_remoteStatus post _ hpost]
  rw [hst, modificationsLine_header _ h hh hlen]
  refine ⟨?_, ?_, ?_, ?_⟩ <;> rintro ⟨ha, hb⟩ <;> simp only [ha, hb] <;> rfl

/-- C4, at a repository that is ahead of its upstream. -/
theorem C4_sync_state_from_header_witness :
    SplitLines "## main...origin/main [ahead 2]\n M file.txt\n".toList
        = [] ++ "## main...origin/main [ahead 2]".toList :: [" M file.txt".toList, []]
    ∧ 3 ≤ goLen "## main...origin/main [ahead 2]".toList
    ∧ ((freshStatus []).getModifications gitAheadDirty).1.RemoteStatus = "ahead".toList :=
  ⟨by decide, by decide,
    (C4_sync_state_from_header gitAheadDirty (freshStatus [])
      "## main...origin/main [ahead 2]\n M file.txt\n".toList []
      [" M file.txt".toList, []] "## main...origin/main [ahead 2]".toList
      rfl (by decide) (by decide) (by decide) (by decide)).2.1 ⟨by decide, by decide⟩⟩

/-- C5: in the status `getModifications` produces from a fresh flag set,
whatever the porcelain output and the result of the stash probe, `changed` is
true if and only if one of unknown, added, modified, removed, deleted, stashed
is true; a clean output (every line empty or a header) with no stash yields
`changed = false`. -/
theorem C5_changed_iff_some_flag (git : GitExec) (path : GoString) :
    (((freshStatus path).getModifications git).1.Modifications.get "changed".toList = true
      ↔ (((freshStatus path).getModifications git).1.Modifications.get "unknown".toList = true
        ∨ ((freshStatus path).getModifications git).1.Modifications.get "added".toList = true
        ∨ ((freshStatus path).getModifications git).1.Modifications.get "modified".toList = true
        ∨ ((freshStatus path).getModifications git).1.Modifications.get "removed".toList = true
        ∨ ((freshStatus path).getModifications git).1.Modifications.get "deleted".toList = true
        ∨ ((freshStatus path).getModifications git).1.Modifications.get "stashed".toList = true))
    ∧ (∀ out : GoString,
        execGitCommand git path ["status".toList, "--porcelain".toList, "-b".toList]
          = { stdout := out, err := none } →
        (execGitCommand git path
          ["rev-parse".toList, "--verify".toList, "refs/stash".toList]).err ≠ none →
        (∀ l ∈ SplitLines out, l = [] ∨ HasPrefix l "##".toList = true) →
        ((freshStatus path).getModifications git).1.Modifications.get "changed".toList
          = false) := by
  constructor
  · have hinv := getModifications_changedInv git (freshStatus path) (by unfold ChangedInv; rfl)
    unfold ChangedInv at hinv
    show ((freshStatus path).getModifications git).1.Modifications.get MOD_CHANGED = true ↔ _
    rw [hinv]
    simp only [Bool.or_eq_true, or_assoc]
    rfl
  · intro out hgit hstash hclean
    have hfold : ∀ (ls : List GoString) (r : repoStatus),
        (∀ l ∈ ls, l = [] ∨ HasPrefix l "##".toList = true) →
        (ls.foldl modificationsLine r).Modifications = r.Modifications := by
      intro ls
      induction ls with
      | nil => intro r _; rfl
      | cons l t ih =>
        intro r hl
        rw [List.foldl_cons, ih _ (fun x hx => hl x (List.mem_cons_of_mem l hx))]
        by_cases hlen : goLen l < 3
        · rw [modificationsLine_short r l hlen]
        · rcases hl l (List.mem_cons_self l t) with h0 | hh
          · subst h0
            exact absurd (by decide : goLen [] < 3) hlen
          · rw [modificationsLine_header r l hh (Nat.not_lt.mp hlen)]
    rw [getModifications_ok git (freshStatus path) out hgit]
    have hpath : (freshStatus path).Path = path := rfl
    rw [hpath]
    split
    · rename_i heq
      exact absurd heq hstash
    · rw [hfold _ _ hclean]
      rfl

/-- C5, at a clean repository without a stash. -/
theorem C5_changed_iff_some_flag_witness :
    (∀ l ∈ SplitLines "## main...origin/main\n".toList,
        l = [] ∨ HasPrefix l "##".toList = true)
    ∧ ((freshStatus []).getModifications gitClean).1.Modifications.get "changed".toList
        = false :=
  ⟨by decide,
    (C5_changed_iff_some_flag gitClean []).2 "## main...origin/main\n".toList rfl
      (by decide) (by decide)⟩

/-- C6: status-code mapping.  A file-status line made of a code of the table
followed by at least one more character sets exactly the flag the table
assigns to the code, and `changed`, and leaves every other flag as it was; so
an output of that single line, read from a fresh flag set with no stash, has
exactly these two flags true.  A lone `AM` line sets modified and not added,
a lone `AD` line sets deleted and not added. -/
theorem C6_status_code_mapping (code flag rest : GoString)
    (hcode : (code, flag) ∈
      [ ("??".toList, "unknown".toList),
        ("A ".toList, "added".toList), ("M ".toList, "added".toList),
        (" M".toList, "modified".toList), ("AM".toList, "modified".toList),
        (" T".toList, "modified".toList),
        ("R ".toList, "removed".toList),
        (" D".toList, "deleted".toList), ("D ".toList, "deleted".toList),
        ("AD".toList, "deleted".toList) ])
    (hrest : rest ≠ []) (hnl : '\n' ∉ rest) :
    (∀ (r : repoStatus) (k : GoString),
        (modificationsLine r (code ++ rest)).Modifications.get k
          = (k == flag || k == "changed".toList || r.Modifications.get k))
    ∧ (∀ (git : GitExec) (path : GoString),
        execGitCommand git path ["status".toList, "--porcelain".toList, "-b".toList]
          = { stdout := code ++ rest ++ "\n".toList, err := none } →
        (execGitCommand git path
          ["rev-parse".toList, "--verify".toList, "refs/stash".toList]).err ≠ none →
        (∀ k : GoString,
          ((freshStatus path).getModifications git).1.Modifications.get k = true
            ↔ (k = flag ∨ k = "changed".toList))
        ∧ (code = "AM".toList →
            ((freshStatus path).getModifications git).1.Modifications.get "modified".toList
              = true
            ∧ ((freshStatus path).getModifications git).1.Modifications.get "added".toList
              = false)
        ∧ (code = "AD".toList →
            ((freshStatus path).getModifications git).1.Modifications.get "deleted".toList
              = true
            ∧ ((freshStatus path).getModifications git).1.Modifications.get "added".toList
              = false)) := by
  have hmem : (code, flag) ∈ porcelainFlags := hcode
  have hline : ∀ r : repoStatus, modificationsLine r (code ++ rest)
      = { r with Modifications := withFlag r.Modifications flag } :=
    fun r => modificationsLine_code r code flag rest hmem hrest
  have hcodenl : '\n' ∉ code ++ rest := by
    intro hin
    rcases List.mem_append.mp hin with hc | hc
    · exact porcelainFlags_no_newline (code, flag) hmem hc
    · exact hnl hc
  have hget : ∀ (git : GitExec) (path : GoString),
      execGitCommand git path ["status".toList, "--porcelain".toList, "-b".toList]
        = { stdout := code ++ rest ++ "\n".toList, err := none } →
      (execGitCommand git path
        ["rev-parse".toList, "--verify".toList, "refs/stash".toList]).err ≠ none →
      ∀ k : GoString,
        ((freshStatus path).getModifications git).1.Modifications.get k
          = (k == flag || k == "changed".toList) := by
    intro git path hgit hstash k
    rw [getModifications_ok git (freshStatus path) _ hgit]
    have hpath : (freshStatus path).Path = path := rfl
    rw [hpath]
    split
    · rename_i heq
      exact absurd heq hstash
    · have hsplit : SplitLines (code ++ rest ++ "\n".toList) = [code ++ rest, []] :=
        splitLines_append_newline (code ++ rest) [] hcodenl
      rw [hsplit]
      simp only [List.foldl_cons, List.foldl_nil]
      rw [hline, modificationsLine_short _ [] (by decide)]
      show (withFlag (freshStatus path).Modifications flag).get k = _
      rw [withFlag_get]
      show (k == flag || k == "changed".toList || false) = _
      simp
  refine ⟨?_, ?_⟩
  · intro r k
    rw [hline]
    exact withFlag_get r.Modifications flag k
  · intro git path hgit hstash
    refine ⟨?_, ?_, ?_⟩
    · intro k
      rw [hget git path hgit hstash k]
      simp
    · intro hc
      have hflag : flag = "modified".toList := porcelainFlags_AM (code, flag) hmem hc
      subst hflag
      rw [hget git path hgit hstash, hget git path hgit hstash]
      exact ⟨by decide, by decide⟩
    · intro hc
      have hflag : flag = "deleted".toList := porcelainFlags_AD (code, flag) hmem hc
      subst hflag
      rw [hget git path hgit hstash, hget git path hgit hstash]
      exact ⟨by decide, by decide⟩

/-- C6, at the single line `AM file.txt`. -/
theorem C6_status_code_mapping_witness :
    ((freshStatus []).getModifications gitAddedModified).1.Modifications.get
        "modified".toList = true
    ∧ ((freshStatus []).getModifications gitAddedModified).1.Modifications.get
        "added".toList = false :=
  ((C6_status_code_mapping "AM".toList "modified".toList " file.txt".toList
      (by decide) (by decide) (by decide)).2 gitAddedModified [] rfl (by decide)).2.1 rfl

/-- C7: when no line of at least three bytes of the porcelain output starts
with a code of the mapping table and no stash is present, `getModifications`
sets no modification flag at all, not even `changed`, and returns without
error. -/
theorem C7_unmapped_codes_ignored (git : GitExec) (r : repoStatus) (out : GoString)
    (hgit : execGitCommand git r.Path
      ["status".toList, "--porcelain".toList, "-b".toList] = { stdout := out, err := none })
    (hstash : (execGitCommand git r.Path
      ["rev-parse".toList, "--verify".toList, "refs/stash".toList]).err ≠ none)
    (hcodes : ∀ l ∈ SplitLines out, 3 ≤ goLen l →
      ∀ e ∈ porcelainFlags, HasPrefix l e.1 = false) :
    (r.getModifications git).2 = none
    ∧ (r.getModifications git).1.Modifications = r.Modifications
    ∧ (r.Modifications = [] →
        ∀ k : GoString, (r.getModifications git).1.Modifications.get k = false) := by
  have hmods : (r.getModifications git).1.Modifications = r.Modifications := by
    rw [getModifications_ok git r out hgit]
    split
    · rename_i heq
      exact absurd heq hstash
    · exact foldl_modificationsLine_unmapped _ r hcodes
  refine ⟨?_, hmods, ?_⟩
  · rw [getModifications_ok git r out hgit]
  · intro hempty k
    rw [hmods, hempty]
    rfl

/-- C7, at an output with the codes `MM`, `UU` and ` A`. -/
theorem C7_unmapped_codes_ignored_witness :
    (∀ l ∈ SplitLines "## main\nMM a.txt\nUU b.txt\n A c.txt\n".toList,
        3 ≤ goLen l → ∀ e ∈ porcelainFlags, HasPrefix l e.1 = false)
    ∧ ((freshStatus []).getModifications gitUnmappedCodes).2 = none
    ∧ ∀ k : GoString,
        ((freshStatus []).getModifications gitUnmappedCodes).1.Modifications.get k = false :=
  ⟨by decide,
    (C7_unmapped_codes_ignored gitUnmappedCodes (freshStatus [])
      "## main\nMM a.txt\nUU b.txt\n A c.txt\n".toList rfl (by decide) (by decide)).1,
    (C7_unmapped_codes_ignored gitUnmappedCodes (freshStatus [])
      "## main\nMM a.txt\nUU b.txt\n A c.txt\n".toList rfl (by decide) (by decide)).2.2 rfl⟩

/-- C8: end-to-end.  For the porcelain output
`## main...origin/main [ahead 2, behind 1]\n M file.txt\n?? new.txt\n` with a
stash present, `getModifications` yields the sync state diverged, the flags
that are true are exactly modified, unknown, stashed and changed, and the
resulting status matches `["diverged", "changed"]` under AND mode. -/
theorem C8_end_to_end_diverged (git : GitExec) (path : GoString)
    (hgit : execGitCommand git path ["status".toList, "--porcelain".toList, "-b".toList]
      = { stdout :=
            "## main...origin/main [ahead 2, behind 1]\n M file.txt\n?? new.txt\n".toList,
          err := none })
    (hstash : (execGitCommand git path
      ["rev-parse".toList, "--verify".toList, "refs/stash".toList]).err = none) :
    ((freshStatus path).getModifications git).2 = none
    ∧ ((freshStatus path).getModifications git).1.RemoteStatus = "diverged".toList
    ∧ (∀ k : GoString,
        ((freshStatus path).getModifications git).1.Modifications.get k = true
          ↔ k ∈ ["modified".toList, "unknown".toList, "stashed".toList, "changed".toList])
    ∧ ((freshStatus path).getModifications git).1.matches false
        ["diverged".toList, "changed".toList] = true := by
  have hres := getModifications_ok git (freshStatus path) _ hgit
  have hpath : (freshStatus path).Path = path := rfl
  rw [hpath, hstash] at hres
  rw [hres]
  refine ⟨rfl, rfl, ?_, rfl⟩
  intro k
  have hm : ∀ m : FlagMap,
      m = [ ("changed".toList, true), ("stashed".toList, true), ("unknown".toList, true),
            ("modified".toList, true) ] →
      (m.get k = true
        ↔ k ∈ ["modified".toList, "unknown".toList, "stashed".toList, "changed".toList]) := by
    intro m hmeq
    subst hmeq
    simp only [FlagMap.get_cons, List.mem_cons, List.mem_singleton, List.not_mem_nil,
      or_false]
    constructor
    · intro h
      by_contra hn
      simp only [not_or] at hn
      obtain ⟨h1, h2, h3, h4⟩ := hn
      rw [if_neg (fun e => h4 e.symm), if_neg (fun e => h3 e.symm),
        if_neg (fun e => h2 e.symm), if_neg (fun e => h1 e.symm)] at h
      exact absurd (show false = true from h) (by decide)
    · rintro (rfl | rfl | rfl | rfl) <;> decide
  exact hm _ rfl

/-- C8, at a scripted repository. -/
theorem C8_end_to_end_diverged_witness :
    ((freshStatus []).getModifications gitDivergedStash).1.RemoteStatus = "diverged".toList
    ∧ ((freshStatus []).getModifications gitDivergedStash).1.matches false
        ["diverged".toList, "changed".toList] = true :=
  ⟨(C8_end_to_end_diverged gitDivergedStash [] rfl rfl).2.1,
    (C8_end_to_end_diverged gitDivergedStash [] rfl rfl).2.2.2⟩

/-! ## Remote and branch resolution: the claims -/

/-- C9: when the output of `remote -v` is empty or white space only,
`getRemote` succeeds and leaves the remote URL empty; and on every status
with an empty remote URL the filter `["remote"]` does not match while
`["no-remote"]` does, in either combine mode. -/
theorem C9_no_remote_configured (git : GitExec) (r : repoStatus) (out : GoString)
    (hgit : execGitCommand git r.Path ["remote".toList, "-v".toList]
      = { stdout := out, err := none })
    (hblank : isBlank out = true) (hr : r.Remote = []) :
    (r.getRemote git).2 = none
    ∧ (r.getRemote git).1.Remote = []
    ∧ (∀ (s : repoStatus) (cfgOr : Bool), s.Remote = [] →
        s.matches cfgOr ["remote".toList] = false
        ∧ s.matches cfgOr ["no-remote".toList] = true) := by
  have h0 : goLen (TrimSpace out) = 0 := by
    rw [goLen_eq_zero_iff]
    exact (trimSpace_eq_nil_iff out).mpr hblank
  have hres : r.getRemote git = (r, none) := by
    unfold repoStatus.getRemote
    simp only [hgit, h0]
    rfl
  refine ⟨by rw [hres], by rw [hres]; exact hr, ?_⟩
  intro s cfgOr hs
  have h1 : ["remote".toList]
      = ([⟨false, .remote⟩] : List FilterToken).map FilterToken.text := rfl
  have h2 : ["no-remote".toList]
      = ([⟨true, .remote⟩] : List FilterToken).map FilterToken.text := rfl
  unfold repoStatus.matches
  rw [h1, h2, foldl_matchesStep_tokens, foldl_matchesStep_tokens]
  cases cfgOr <;>
    simp [FilterToken.effective, Keyword.holds, Keyword.isSync, Keyword.isFlag, hs]

/-- C9, at a repository without remotes. -/
theorem C9_no_remote_configured_witness :
    isBlank "".toList = true
    ∧ ((freshStatus []).getRemote gitClean).2 = none
    ∧ ((freshStatus []).getRemote gitClean).1.Remote = []
    ∧ ((freshStatus []).getRemote gitClean).1.matches false ["remote".toList] = false
    ∧ ((freshStatus []).getRemote gitClean).1.matches false ["no-remote".toList] = true :=
  ⟨by decide,
    (C9_no_remote_configured gitClean (freshStatus []) "".toList rfl (by decide) rfl).1,
    (C9_no_remote_configured gitClean (freshStatus []) "".toList rfl (by decide) rfl).2.1,
    ((C9_no_remote_configured gitClean (freshStatus []) "".toList rfl (by decide) rfl).2.2
      _ false (by decide)).1,
    ((C9_no_remote_configured gitClean (freshStatus []) "".toList rfl (by decide) rfl).2.2
      _ false (by decide)).2⟩

/-- C10: branch resolution.  When `symbolic-ref --quiet HEAD` succeeds with
the output `refs/heads/<b>` and a line feed, `b` without white space at either
end, `getCurrentBranch` succeeds and stores `b`; when `symbolic-ref` fails and
`rev-parse --short HEAD` succeeds with an abbreviated object name (hexadecimal
digits) and a line feed, it succeeds and stores that name, and so it does for
any output without white space at either end that does not begin with
`refs/heads/`; the output `a1b2c3d` gives the branch `a1b2c3d`. -/
theorem C10_branch_resolution (git : GitExec) (r : repoStatus) :
    (∀ b : GoString, NoOuterSpace b →
        execGitCommand git r.Path ["symbolic-ref".toList, "--quiet".toList, "HEAD".toList]
          = { stdout := "refs/heads/".toList ++ b ++ "\n".toList, err := none } →
        (r.getCurrentBranch git).2 = none ∧ (r.getCurrentBranch git).1.Branch = b)
    ∧ (∀ id : GoString, (∀ c ∈ id, isHexDigit c = true) →
        (execGitCommand git r.Path
          ["symbolic-ref".toList, "--quiet".toList, "HEAD".toList]).err ≠ none →
        execGitCommand git r.Path ["rev-parse".toList, "--short".toList, "HEAD".toList]
          = { stdout := id ++ "\n".toList, err := none } →
        (r.getCurrentBranch git).2 = none ∧ (r.getCurrentBranch git).1.Branch = id)
    ∧ (∀ id : GoString, NoOuterSpace id → HasPrefix id "refs/heads/".toList = false →
        (execGitCommand git r.Path
          ["symbolic-ref".toList, "--quiet".toList, "HEAD".toList]).err ≠ none →
        execGitCommand git r.Path ["rev-parse".toList, "--short".toList, "HEAD".toList]
          = { stdout := id ++ "\n".toList, err := none } →
        (r.getCurrentBranch git).2 = none ∧ (r.getCurrentBranch git).1.Branch = id)
    ∧ ((execGitCommand git r.Path
          ["symbolic-ref".toList, "--quiet".toList, "HEAD".toList]).err ≠ none →
        execGitCommand git r.Path ["rev-parse".toList, "--short".toList, "HEAD".toList]
          = { stdout := "a1b2c3d\n".toList, err := none } →
        (r.getCurrentBranch git).2 = none
        ∧ (r.getCurrentBranch git).1.Branch = "a1b2c3d".toList) := by
  have hgeneral : ∀ id : GoString, NoOuterSpace id →
      TrimPrefix id "refs/heads/".toList = id →
      (execGitCommand git r.Path
        ["symbolic-ref".toList, "--quiet".toList, "HEAD".toList]).err ≠ none →
      execGitCommand git r.Path ["rev-parse".toList, "--short".toList, "HEAD".toList]
        = { stdout := id ++ "\n".toList, err := none } →
      (r.getCurrentBranch git).2 = none ∧ (r.getCurrentBranch git).1.Branch = id := by
    intro id hid hpre hsym hrev
    cases herr : (execGitCommand git r.Path
        ["symbolic-ref".toList, "--quiet".toList, "HEAD".toList]).err with
    | none => exact absurd herr hsym
    | some e =>
      have hres : r.getCurrentBranch git = ({ r with Branch := id }, none) := by
        unfold repoStatus.getCurrentBranch
        simp only [herr, hrev]
        rw [trimSpace_append_newline id hid, hpre]
      rw [hres]
      exact ⟨rfl, rfl⟩
  have hfallback : ∀ id : GoString, (∀ c ∈ id, isHexDigit c = true) →
      (execGitCommand git r.Path
        ["symbolic-ref".toList, "--quiet".toList, "HEAD".toList]).err ≠ none →
      execGitCommand git r.Path ["rev-parse".toList, "--short".toList, "HEAD".toList]
        = { stdout := id ++ "\n".toList, err := none } →
      (r.getCurrentBranch git).2 = none ∧ (r.getCurrentBranch git).1.Branch = id :=
    fun id hid => hgeneral id (hex_noOuterSpace id hid) (hex_trimPrefix_refs id hid)
  refine ⟨?_, hfallback, ?_, ?_⟩
  · intro b hb hsym
    have hres : r.getCurrentBranch git = ({ r with Branch := b }, none) := by
      unfold repoStatus.getCurrentBranch
      simp only [hsym]
      rw [trimSpace_append_newline _ (refs_heads_noOuterSpace b hb), trimPrefix_append]
    rw [hres]
    exact ⟨rfl, rfl⟩
  · intro id hid hpre
    apply hgeneral id hid
    unfold TrimPrefix
    rw [hpre]
    rfl
  · intro hsym hrev
    exact hfallback "a1b2c3d".toList (by decide) hsym hrev

/-- C10, at a detached HEAD. -/
theorem C10_branch_resolution_witness :
    (gitDetached [] ["symbolic-ref".toList, "--quiet".toList, "HEAD".toList]).err ≠ none
    ∧ ((freshStatus []).getCurrentBranch gitDetached).2 = none
    ∧ ((freshStatus []).getCurrentBranch gitDetached).1.Branch = "a1b2c3d".toList :=
  ⟨by decide,
    ((C10_branch_resolution gitDetached (freshStatus [])).2.2.2 (by decide) rfl).1,
    ((C10_branch_resolution gitDetached (freshStatus [])).2.2.2 (by decide) rfl).2⟩

/-! ## Lemmas on the pattern matcher -/

theorem firstDown_eq_none {α : Type} (f : Nat → Option α) (n : Nat)
    (h : ∀ k, 1 ≤ k → k ≤ n → f k = none) : firstDown f n = none := by
  induction n with
  | zero => rfl
  | succ m ih =>
    rw [firstDown, h (m + 1) (by omega) (by omega)]
    exact ih (fun k h1 h2 => h k h1 (by omega))

theorem firstDown_some_exists {α : Type} (f : Nat → Option α) (n : Nat) (a : α)
    (h : firstDown f n = some a) : ∃ k, 1 ≤ k ∧ k ≤ n ∧ f k = some a := by
  induction n with
  | zero => simp [firstDown] at h
  | succ m ih =>
    rw [firstDown] at h
    cases hf : f (m + 1) with
    | some b =>
      rw [hf] at h
      exact ⟨m + 1, by omega, by omega, by rw [hf]; exact h⟩
    | none =>
      rw [hf] at h
      obtain ⟨k, h1, h2, h3⟩ := ih h
      exact ⟨k, h1, by omega, h3⟩

theorem firstDown_top {α : Type} (f : Nat → Option α) (n : Nat) (a : α) (hn : 1 ≤ n)
    (h : f n = some a) : firstDown f n = some a := by
  cases n with
  | zero => omega
  | succ m => rw [firstDown, h]

theorem firstDown_ne_none {α : Type} (f : Nat → Option α) (n k : Nat) (h1 : 1 ≤ k)
    (h2 : k ≤ n) (hk : f k ≠ none) : firstDown f n ≠ none := by
  intro hnone
  induction n with
  | zero => omega
  | succ m ih =>
    rw [firstDown] at hnone
    cases hf : f (m + 1) with
    | some b => rw [hf] at hnone; exact absurd hnone (by simp)
    | none =>
      rw [hf] at hnone
      by_cases hkm : k = m + 1
      · rw [hkm] at hk
        exact hk hf
      · exact ih (by omega) hnone

theorem takeWhile_append_stop (cls : Char → Bool) (u t : GoString) (x : Char)
    (hall : ∀ c ∈ u, cls c = true) (hx : cls x = false) :
    List.takeWhile cls (u ++ x :: t) = u := by
  induction u with
  | nil => simp [List.takeWhile, hx]
  | cons a v ih =>
    have ha : cls a = true := hall a (List.mem_cons_self a v)
    rw [List.cons_append, List.takeWhile_cons, ha]
    simp only [if_true]
    rw [ih (fun c hc => hall c (List.mem_cons_of_mem a hc))]

theorem length_le_takeWhile_append (cls : Char → Bool) (u t : GoString)
    (hall : ∀ c ∈ u, cls c = true) : u.length ≤ (List.takeWhile cls (u ++ t)).length := by
  induction u with
  | nil => simp
  | cons a v ih =>
    have ha : cls a = true := hall a (List.mem_cons_self a v)
    rw [List.cons_append, List.takeWhile_cons, ha]
    simp only [if_true, List.length_cons]
    have := ih (fun c hc => hall c (List.mem_cons_of_mem a hc))
    omega

theorem take_all_of_le_takeWhile (cls : Char → Bool) (s : GoString) (j : Nat)
    (hj : j ≤ (List.takeWhile cls s).length) : ∀ c ∈ s.take j, cls c = true := by
  induction s generalizing j with
  | nil => intro c hc; simp at hc
  | cons a t ih =>
    cases j with
    | zero => intro c hc; simp at hc
    | succ i =>
      rw [List.takeWhile_cons] at hj
      by_cases ha : cls a = true
      · rw [if_pos ha, List.length_cons] at hj
        intro c hc
        rw [List.take_succ_cons] at hc
        rcases List.mem_cons.mp hc with rfl | hc
        · exact ha
        · exact ih i (by omega) c hc
      · rw [if_neg ha] at hj
        simp at hj

/-- A final literal matches exactly the text that is this literal. -/
theorem rxMatch_lit_end (p s : GoString) :
    rxMatch [Rx.lit p] s = if s = p then some [] else none := by
  rw [rxMatch]
  by_cases hpre : p.isPrefixOf s = true
  · rw [if_pos hpre]
    obtain ⟨t, ht⟩ := List.isPrefixOf_iff_prefix.mp hpre
    subst ht
    rw [List.drop_left, rxMatch]
    cases t with
    | nil => simp
    | cons a v => simp
  · rw [if_neg hpre]
    have hne : s ≠ p := by
      intro e
      subst e
      exact hpre (List.isPrefixOf_iff_prefix.mpr (List.prefix_refl s))
    rw [if_neg hne]

/-- What a match of `(c+)lit$` captures. -/
theorem rxMatch_group_sound (cls : Char → Bool) (p s : GoString) (caps : List GoString)
    (h : rxMatch [Rx.group cls, Rx.lit p] s = some caps) :
    ∃ u, caps = [u] ∧ s = u ++ p ∧ u ≠ [] ∧ ∀ c ∈ u, cls c = true := by
  rw [rxMatch] at h
  obtain ⟨j, hj1, hj2, hj⟩ := firstDown_some_exists _ _ _ h
  rw [rxMatch_lit_end] at hj
  by_cases hd : s.drop j = p
  · rw [if_pos hd] at hj
    simp only [Option.map_some', Option.some.injEq] at hj
    have hlen : j ≤ s.length := le_trans hj2 (List.takeWhile_prefix cls).length_le
    refine ⟨s.take j, hj.symm, ?_, ?_, take_all_of_le_takeWhile cls s j hj2⟩
    · rw [← hd, List.take_append_drop]
    · intro hnil
      have : (s.take j).length = j := List.length_take_of_le hlen
      rw [hnil] at this
      simp at this
      omega
  · rw [if_neg hd] at hj
    simp at hj

/-- A run of class characters followed by a literal that starts with a space is
matched by `(c+)lit$` when the space is outside the class, capturing the run. -/
theorem rxMatch_group_complete (cls : Char → Bool) (p u : GoString) (hu : u ≠ [])
    (hall : ∀ c ∈ u, cls c = true) (hp : cls ' ' = false) :
    rxMatch [Rx.group cls, Rx.lit (' ' :: p)] (u ++ ' ' :: p) = some [u] := by
  rw [rxMatch, takeWhile_append_stop cls u p ' ' hall hp]
  apply firstDown_top
  · cases u with
    | nil => exact absurd rfl hu
    | cons a v => simp
  · rw [List.drop_left, rxMatch_lit_end, if_pos rfl, List.take_left]
    rfl

/-- What a match of `^o\s+(c+)p$` says about the line and the capture. -/
theorem rxMatch_origin_sound (cls : Char → Bool) (o p line : GoString)
    (caps : List GoString)
    (h : rxMatch [Rx.lit o, Rx.plus rxSpace, Rx.group cls, Rx.lit p] line = some caps) :
    ∃ ws u, caps = [u] ∧ line = o ++ ws ++ u ++ p ∧ ws ≠ []
      ∧ (∀ c ∈ ws, rxSpace c = true) ∧ u ≠ [] ∧ ∀ c ∈ u, cls c = true := by
  rw [rxMatch] at h
  by_cases hpre : o.isPrefixOf line = true
  · rw [if_pos hpre] at h
    obtain ⟨s1, hs1⟩ := List.isPrefixOf_iff_prefix.mp hpre
    subst hs1
    rw [List.drop_left, rxMatch] at h
    obtain ⟨k, hk1, hk2, hk⟩ := firstDown_some_exists _ _ _ h
    obtain ⟨u, hc, hs, hu, hall⟩ := rxMatch_group_sound cls p _ caps hk
    have hlen : k ≤ s1.length := le_trans hk2 (List.takeWhile_prefix rxSpace).length_le
    refine ⟨s1.take k, u, hc, ?_, ?_, take_all_of_le_takeWhile rxSpace s1 k hk2, hu, hall⟩
    · rw [List.append_assoc, List.append_assoc, ← hs, List.take_append_drop]
    · intro hnil
      have : (s1.take k).length = k := List.length_take_of_le hlen
      rw [hnil] at this
      simp at this
      omega
  · rw [if_neg hpre] at h
    simp at h

/-- The greedy choice: when the captured run does not start with a `\s`
character, the match captures exactly this run. -/
theorem rxMatch_origin_greedy (cls : Char → Bool) (o p ws u : GoString)
    (hws : ws ≠ []) (hwsall : ∀ c ∈ ws, rxSpace c = true) (hu : u ≠ [])
    (hall : ∀ c ∈ u, cls c = true) (hhead : ∀ c, u.head? = some c → rxSpace c = false)
    (hp : cls ' ' = false) :
    rxMatch [Rx.lit o, Rx.plus rxSpace, Rx.group cls, Rx.lit (' ' :: p)]
      (o ++ ws ++ u ++ ' ' :: p) = some [u] := by
  have hpre : o.isPrefixOf (o ++ ws ++ u ++ ' ' :: p) = true := by
    rw [List.isPrefixOf_iff_prefix, List.append_assoc, List.append_assoc]
    exact List.prefix_append o _
  rw [rxMatch, if_pos hpre, List.append_assoc, List.append_assoc, List.drop_left, rxMatch]
  cases u with
  | nil => exact absurd rfl hu
  | cons a v =>
    have ha : rxSpace a = false := hhead a rfl
    have htw : List.takeWhile rxSpace (ws ++ (a :: v ++ ' ' :: p)) = ws :=
      takeWhile_append_stop rxSpace ws (v ++ ' ' :: p) a hwsall ha
    rw [htw]
    apply firstDown_top
    · cases ws with
      | nil => exact absurd rfl hws
      | cons b w => simp
    · rw [List.drop_left]
      exact rxMatch_group_complete cls p (a :: v) hu hall hp

/-- Every line of the shape `o`, a `\s` run, a class run, `p` is accepted. -/
theorem rxMatch_origin_accepts (cls : Char → Bool) (o p ws u : GoString)
    (hws : ws ≠ []) (hwsall : ∀ c ∈ ws, rxSpace c = true) (hu : u ≠ [])
    (hall : ∀ c ∈ u, cls c = true) (hp : cls ' ' = false) :
    rxMatch [Rx.lit o, Rx.plus rxSpace, Rx.group cls, Rx.lit (' ' :: p)]
      (o ++ ws ++ u ++ ' ' :: p) ≠ none := by
  have hpre : o.isPrefixOf (o ++ ws ++ u ++ ' ' :: p) = true := by
    rw [List.isPrefixOf_iff_prefix, List.append_assoc, List.append_assoc]
    exact List.prefix_append o _
  rw [rxMatch, if_pos hpre, List.append_assoc, List.append_assoc, List.drop_left, rxMatch]
  apply firstDown_ne_none _ _ ws.length
  · cases ws with
    | nil => exact absurd rfl hws
    | cons b w => simp
  · exact length_le_takeWhile_append rxSpace ws _ hwsall
  · rw [List.drop_left, rxMatch_group_complete cls p u hu hall hp]
    simp

theorem rxSpace_isSpace (c : Char) (h : rxSpace c = true) : isSpace c = true := by
  unfold rxSpace at h
  simp only [Bool.or_eq_true, beq_iff_eq] at h
  rcases h with (((h | h) | h) | h) | h <;> (subst h; decide)

theorem spaceFree_not_rxSpace (s : GoString) (hs : IsSpaceFree s) (c : Char) (hc : c ∈ s) :
    rxSpace c = false := by
  cases h : rxSpace c with
  | false => rfl
  | true =>
    have h1 := rxSpace_isSpace c h
    rw [hs c hc] at h1
    exact absurd h1 (by simp)

theorem spaceFree_rxNotBlank (s : GoString) (hs : IsSpaceFree s) (c : Char) (hc : c ∈ s) :
    rxNotBlank c = true := by
  unfold rxNotBlank
  simp only [bne_iff_ne, ne_eq]
  intro e
  have h1 := hs c hc
  rw [e] at h1
  exact absurd h1 (by decide)

/-- A `(fetch)` line is never matched. -/
theorem rex_rejects_fetch (x : GoString) :
    rxMatch rex (x ++ " (fetch)".toList) = none := by
  cases hm : rxMatch rex (x ++ " (fetch)".toList) with
  | none => rfl
  | some caps =>
    exfalso
    obtain ⟨ws, u, _, hline, _⟩ :=
      rxMatch_origin_sound rxNotBlank "origin".toList " (push)".toList _ caps hm
    have h1 : " (push)".toList <:+ x ++ " (fetch)".toList := ⟨_, hline.symm⟩
    have h2 : " (fetch)".toList <:+ x ++ " (fetch)".toList := List.suffix_append x _
    have h3 : " (push)".toList <:+ " (fetch)".toList :=
      List.suffix_of_suffix_length_le h1 h2 (by decide)
    exact absurd h3 (by decide)

/-- A line of a remote whose name is free of white space and is not `origin`
is never matched. -/
theorem rex_rejects_other_name (name tail : GoString) (hname : IsSpaceFree name)
    (hne : name ≠ "origin".toList) : rxMatch rex (name ++ '\t' :: tail) = none := by
  cases hm : rxMatch rex (name ++ '\t' :: tail) with
  | none => rfl
  | some caps =>
    exfalso
    obtain ⟨ws, u, _, hline, hws, hwsall, _⟩ :=
      rxMatch_origin_sound rxNotBlank "origin".toList " (push)".toList _ caps hm
    have h1 : name <+: name ++ '\t' :: tail := List.prefix_append name _
    have h2 : "origin".toList <+: name ++ '\t' :: tail := by
      rw [hline, List.append_assoc, List.append_assoc]
      exact List.prefix_append _ _
    rcases List.prefix_or_prefix_of_prefix h1 h2 with hno | hon
    · have hlt : name.length < "origin".toList.length := by
        by_contra hge
        exact hne (hno.eq_of_length_le (Nat.not_lt.mp hge))
      have h3 : name ++ ['\t'] <+: name ++ '\t' :: tail :=
        ⟨tail, by rw [List.append_assoc]; rfl⟩
      have h4 : name ++ ['\t'] <+: "origin".toList :=
        List.prefix_of_prefix_length_le h3 h2 (by rw [List.length_append]; exact hlt)
      have h5 : '\t' ∈ "origin".toList := h4.subset (by simp)
      exact absurd h5 (by decide)
    · obtain ⟨rest, hrest⟩ := hon
      have hrne : rest ≠ [] := by
        intro e
        rw [e, List.append_nil] at hrest
        exact hne hrest.symm
      rw [← hrest, List.append_assoc, List.append_assoc, List.append_assoc] at hline
      have hcancel := List.append_cancel_left hline
      cases rest with
      | nil => exact hrne rfl
      | cons a rest' =>
        cases ws with
        | nil => exact hws rfl
        | cons b ws' =>
          rw [List.cons_append, List.cons_append] at hcancel
          have hab : a = b := (List.cons.inj hcancel).1
          have ha : rxSpace a = false :=
            spaceFree_not_rxSpace name hname a (by rw [← hrest]; simp)
          have hb : rxSpace b = true := hwsall b (List.mem_cons_self b ws')
          rw [hab, hb] at ha
          exact absurd ha (by simp)

/-- On a line in protocol form the pattern matches exactly the push line of
`origin`, and captures its URL. -/
theorem rxMatch_rex_remoteLine (l : RemoteLine) (hwf : l.WellFormed) :
    rxMatch rex l.text = if isOriginPush l = true then some [l.url] else none := by
  obtain ⟨hname, hurl, hne⟩ := hwf
  by_cases hpush : l.push = true
  · by_cases hn : l.name = "origin".toList
    · have hop : isOriginPush l = true := by
        unfold isOriginPush
        rw [hn, hpush]
        rfl
      rw [if_pos hop]
      unfold RemoteLine.text
      rw [hn, hpush]
      simp only [if_true]
      exact rxMatch_origin_greedy rxNotBlank "origin".toList "(push)".toList "\t".toList
        l.url (by decide) (by decide) hne (spaceFree_rxNotBlank l.url hurl)
        (fun c hc => spaceFree_not_rxSpace l.url hurl c (List.mem_of_mem_head? hc))
        (by decide)
    · have hop : ¬ isOriginPush l = true := by
        unfold isOriginPush
        intro h
        rw [Bool.and_eq_true, beq_iff_eq] at h
        exact hn h.1
      rw [if_neg hop]
      unfold RemoteLine.text
      rw [List.append_assoc, List.append_assoc]
      exact rex_rejects_other_name l.name _ hname hn
  · have hop : ¬ isOriginPush l = true := by
      unfold isOriginPush
      simp [hpush]
    rw [if_neg hop]
    unfold RemoteLine.text
    rw [if_neg hpush]
    exact rex_rejects_fetch _

/-! ## Lemmas on the remote listing -/

theorem remoteLine_text_no_newline (l : RemoteLine) (hwf : l.WellFormed) :
    '\n' ∉ l.text := by
  obtain ⟨hname, hurl, _⟩ := hwf
  have hsp : isSpace '\n' = true := by decide
  unfold RemoteLine.text
  intro hmem
  rcases List.mem_append.mp hmem with h | h
  · rcases List.mem_append.mp h with h | h
    · rcases List.mem_append.mp h with h | h
      · rw [hname _ h] at hsp
        exact absurd hsp (by simp)
      · exact absurd h (by decide)
    · rw [hurl _ h] at hsp
      exact absurd hsp (by simp)
  · cases hp : l.push with
    | true =>
      rw [hp] at h
      exact absurd h (by decide)
    | false =>
      rw [hp] at h
      exact absurd h (by decide)

theorem splitLines_remoteListing (ls : List RemoteLine) (hwf : ∀ l ∈ ls, l.WellFormed) :
    SplitLines (remoteListing ls) = ls.map RemoteLine.text ++ [[]] := by
  induction ls with
  | nil => rfl
  | cons l t ih =>
    rw [remoteListing, splitLines_append_newline _ _
      (remoteLine_text_no_newline l (hwf l (List.mem_cons_self l t))),
      ih (fun x hx => hwf x (List.mem_cons_of_mem l hx))]
    rfl

theorem getRemoteLines_listing (r : repoStatus) (ls : List RemoteLine)
    (hwf : ∀ l ∈ ls, l.WellFormed) :
    getRemoteLines r (ls.map RemoteLine.text ++ [[]])
      = match ls.find? isOriginPush with
        | some l => { r with Remote := l.url }
        | none => r := by
  induction ls with
  | nil => rfl
  | cons l t ih =>
    have hl := rxMatch_rex_remoteLine l (hwf l (List.mem_cons_self l t))
    rw [List.map_cons, List.cons_append, getRemoteLines, FindStringSubmatch, hl,
      List.find?_cons]
    by_cases hop : isOriginPush l = true
    · rw [if_pos hop, hop]
    · have hop2 : isOriginPush l = false := by simpa using hop
      rw [if_neg hop, hop2]
      exact ih (fun x hx => hwf x (List.mem_cons_of_mem l hx))

theorem remoteListing_not_blank (l : RemoteLine) (t : List RemoteLine)
    (hwf : l.WellFormed) : ¬ (goLen (TrimSpace (remoteListing (l :: t))) = 0) := by
  obtain ⟨_, hurl, hne⟩ := hwf
  rw [goLen_eq_zero_iff, trimSpace_eq_nil_iff]
  intro hb
  unfold isBlank at hb
  rw [List.all_eq_true] at hb
  cases hu : l.url with
  | nil => exact hne hu
  | cons a v =>
    have ha : a ∈ l.url := by rw [hu]; exact List.mem_cons_self a v
    have hmem : a ∈ remoteListing (l :: t) := by
      rw [remoteListing]
      apply List.mem_append_left
      unfold RemoteLine.text
      apply List.mem_append_left
      exact List.mem_append_right _ ha
    have h1 := hb a hmem
    rw [hurl a ha] at h1
    exact absurd h1 (by simp)

/-! ## Remote resolution: the claims -/

/-- C11: remote resolution.  For an output of `remote -v` made of lines in
protocol form, `<name>`, a tab, `<url>` and ` (fetch)` or ` (push)`, with names
and URLs free of white space, `getRemote` returns no error and sets the remote
URL to the URL of the first line whose name is exactly `origin` and whose
mode is push; when there is no such line it leaves the remote URL empty. -/
theorem C11_remote_resolution (git : GitExec) (r : repoStatus) (ls : List RemoteLine)
    (hwf : ∀ l ∈ ls, l.WellFormed)
    (hgit : execGitCommand git r.Path ["remote".toList, "-v".toList]
      = { stdout := remoteListing ls, err := none })
    (hr : r.Remote = []) :
    (r.getRemote git).2 = none
    ∧ (∀ l, ls.find? isOriginPush = some l → (r.getRemote git).1.Remote = l.url)
    ∧ (ls.find? isOriginPush = none → (r.getRemote git).1.Remote = []) := by
  have hres : r.getRemote git
      = (match ls.find? isOriginPush with
          | some l => { r with Remote := l.url }
          | none => r, none) := by
    unfold repoStatus.getRemote
    simp only [hgit]
    cases ls with
    | nil => rfl
    | cons l t =>
      have hnb := remoteListing_not_blank l t (hwf l (List.mem_cons_self l t))
      have hnb2 : (goLen (TrimSpace (remoteListing (l :: t))) == 0) = false := by
        simpa using hnb
      rw [hnb2, splitLines_remoteListing _ hwf, getRemoteLines_listing r _ hwf]
      rfl
  rw [hres]
  refine ⟨rfl, ?_, ?_⟩
  · intro l hl
    rw [hl]
  · intro hnone
    rw [hnone]
    exact hr

/-- C11, at a listing with the remotes `origin2`, `myorigin` and `origin`. -/
theorem C11_remote_resolution_witness :
    (∀ l ∈ threeRemotesLines, l.WellFormed)
    ∧ ((freshStatus []).getRemote gitThreeRemotes).2 = none
    ∧ ((freshStatus []).getRemote gitThreeRemotes).1.Remote
        = "git@example.org:me/r.git".toList :=
  ⟨by decide,
    (C11_remote_resolution gitThreeRemotes (freshStatus []) threeRemotesLines
      (by decide) rfl rfl).1,
    (C11_remote_resolution gitThreeRemotes (freshStatus []) threeRemotesLines
      (by decide) rfl rfl).2.1
      { name := "origin".toList, url := "git@example.org:me/r.git".toList, push := true }
      (by decide)⟩

/-- C19, as stated, fails: on the line `origin`, tab, a URL with a tab in it,
` (push)`, `getRemote` extracts the URL, which contains the white space
character tab, while the specified pattern `^origin\s+(\S+) \(push\)$` does not
match the line. -/
theorem C19_pattern_counterexample :
    ((freshStatus []).getRemote gitTabInUrl).1.Remote
        = "https://example.org/a\tb.git".toList
    ∧ FindStringSubmatch rex "origin\thttps://example.org/a\tb.git (push)".toList
        = [ "origin\thttps://example.org/a\tb.git (push)".toList,
            "https://example.org/a\tb.git".toList ]
    ∧ FindStringSubmatch rexSpec "origin\thttps://example.org/a\tb.git (push)".toList = []
    ∧ '\t' ∈ ((freshStatus []).getRemote gitTabInUrl).1.Remote
    ∧ rxSpace '\t' = true ∧ isSpace '\t' = true := by
  refine ⟨by decide, by decide, by decide, by decide, by decide, by decide⟩

/-- C19, amended: the pattern `getRemote` implements is
`^origin\s+([^ ]+) \(push\)$`.  A line is accepted exactly when it is `origin`,
a non-empty run of `\s` characters, a non-empty run of characters other than
the space, and ` (push)`; what is extracted is such a run, so it never
contains a space; it is what the loop of `getRemote` stores; and whenever the
specified pattern `^origin\s+(\S+) \(push\)$` matches with capture `u`, the
line is accepted and `u` is extracted. -/
theorem C19_pattern_refinement (line u : GoString) :
    ((∃ v, FindStringSubmatch rex line = [line, v])
      ↔ ∃ ws v, line = "origin".toList ++ ws ++ v ++ " (push)".toList ∧ ws ≠ []
          ∧ (∀ c ∈ ws, rxSpace c = true) ∧ v ≠ [] ∧ ' ' ∉ v)
    ∧ (FindStringSubmatch rex line = [line, u] →
        (∃ ws, line = "origin".toList ++ ws ++ u ++ " (push)".toList ∧ ws ≠ []
          ∧ (∀ c ∈ ws, rxSpace c = true)) ∧ u ≠ [] ∧ ' ' ∉ u
        ∧ ∀ r : repoStatus, (getRemoteLines r [line]).Remote = u)
    ∧ (FindStringSubmatch rexSpec line = [line, u] →
        FindStringSubmatch rex line = [line, u]) := by
  have hfind : ∀ (p : List Rx) (v : GoString),
      FindStringSubmatch p line = [line, v] ↔ rxMatch p line = some [v] := by
    intro p v
    unfold FindStringSubmatch
    cases hm : rxMatch p line with
    | none => simp
    | some caps => simp
  have hnb : ∀ v : GoString, (∀ c ∈ v, rxNotBlank c = true) → ' ' ∉ v := by
    intro v hv hmem
    exact absurd (hv ' ' hmem) (by decide)
  have hsound : ∀ v, rxMatch rex line = some [v] →
      (∃ ws, line = "origin".toList ++ ws ++ v ++ " (push)".toList ∧ ws ≠ []
        ∧ (∀ c ∈ ws, rxSpace c = true)) ∧ v ≠ [] ∧ ' ' ∉ v := by
    intro v hv
    obtain ⟨ws, w, hcaps, hline, hws, hwsall, hw, hwall⟩ :=
      rxMatch_origin_sound rxNotBlank "origin".toList " (push)".toList line [v] hv
    have hvw : v = w := List.head_eq_of_cons_eq hcaps
    subst hvw
    exact ⟨⟨ws, hline, hws, hwsall⟩, hw, hnb v hwall⟩
  refine ⟨⟨?_, ?_⟩, ?_, ?_⟩
  · rintro ⟨v, hv⟩
    obtain ⟨⟨ws, h1, h2, h3⟩, h4, h5⟩ := hsound v ((hfind rex v).mp hv)
    exact ⟨ws, v, h1, h2, h3, h4, h5⟩
  · rintro ⟨ws, v, hline, hws, hwsall, hv, hblank⟩
    have hall : ∀ c ∈ v, rxNotBlank c = true := by
      intro c hc
      unfold rxNotBlank
      simp only [bne_iff_ne, ne_eq]
      intro e
      exact hblank (e ▸ hc)
    have hacc := rxMatch_origin_accepts rxNotBlank "origin".toList "(push)".toList ws v
      hws hwsall hv hall (by decide)
    have hline2 : line = "origin".toList ++ ws ++ v ++ ' ' :: "(push)".toList := hline
    rw [← hline2] at hacc
    cases hm : rxMatch rex line with
    | none => exact absurd hm hacc
    | some caps =>
      obtain ⟨_, w, hcaps, _⟩ :=
        rxMatch_origin_sound rxNotBlank "origin".toList " (push)".toList line caps hm
      refine ⟨w, ?_⟩
      rw [hfind, hm, hcaps]
  · intro hu
    have hm := (hfind rex u).mp hu
    obtain ⟨h1, h2, h3⟩ := hsound u hm
    refine ⟨h1, h2, h3, ?_⟩
    intro r
    rw [getRemoteLines, hu]
  · intro hspec
    have hm := (hfind rexSpec u).mp hspec
    obtain ⟨ws, w, hcaps, hline, hws, hwsall, hw, hwall⟩ :=
      rxMatch_origin_sound rxNonSpace "origin".toList " (push)".toList line [u] hm
    have huw : u = w := List.head_eq_of_cons_eq hcaps
    subst huw
    have hns : ∀ c ∈ u, rxSpace c = false := by
      intro c hc
      have := hwall c hc
      unfold rxNonSpace at this
      simpa using this
    have hall : ∀ c ∈ u, rxNotBlank c = true := by
      intro c hc
      unfold rxNotBlank
      simp only [bne_iff_ne, ne_eq]
      intro e
      have h1 := hns c hc
      rw [e] at h1
      exact absurd h1 (by decide)
    have hg := rxMatch_origin_greedy rxNotBlank "origin".toList "(push)".toList ws u
      hws hwsall hw hall (fun c hc => hns c (List.mem_of_mem_head? hc)) (by decide)
    have hline2 : line = "origin".toList ++ ws ++ u ++ ' ' :: "(push)".toList := hline
    rw [← hline2] at hg
    exact (hfind rex u).mpr hg

/-- C19, amended, at an ordinary push line of `origin`. -/
theorem C19_pattern_refinement_witness :
    FindStringSubmatch rexSpec "origin\tgit@example.org:me/r.git (push)".toList
        = [ "origin\tgit@example.org:me/r.git (push)".toList,
            "git@example.org:me/r.git".toList ]
    ∧ FindStringSubmatch rex "origin\tgit@example.org:me/r.git (push)".toList
        = [ "origin\tgit@example.org:me/r.git (push)".toList,
            "git@example.org:me/r.git".toList ]
    ∧ ' ' ∉ "git@example.org:me/r.git".toList :=
  ⟨by decide,
    (C19_pattern_refinement "origin\tgit@example.org:me/r.git (push)".toList
      "git@example.org:me/r.git".toList).2.2 (by decide),
    ((C19_pattern_refinement "origin\tgit@example.org:me/r.git (push)".toList
      "git@example.org:me/r.git".toList).2.1 (by decide)).2.2.1⟩

/-! ## Lemmas on the whole probe -/

theorem getCurrentBranch_path (git : GitExec) (r : repoStatus) :
    (r.getCurrentBranch git).1.Path = r.Path := rfl

theorem getCurrentBranch_err (git : GitExec) (r : repoStatus) :
    (r.getCurrentBranch git).2
      = match (execGitCommand git r.Path
            ["symbolic-ref".toList, "--quiet".toList, "HEAD".toList]).err with
        | none => none
        | some _ => (execGitCommand git r.Path
            ["rev-parse".toList, "--short".toList, "HEAD".toList]).err := by
  unfold repoStatus.getCurrentBranch
  cases h : (execGitCommand git r.Path
      ["symbolic-ref".toList, "--quiet".toList, "HEAD".toList]).err with
  | none => simp only [h]
  | some e => simp only [h]

theorem getRemoteLines_path (r : repoStatus) (ls : List GoString) :
    (getRemoteLines r ls).Path = r.Path := by
  induction ls with
  | nil => rfl
  | cons l t ih =>
    rw [getRemoteLines]
    split
    · rfl
    · exact ih

theorem getRemote_path (git : GitExec) (r : repoStatus) :
    (r.getRemote git).1.Path = r.Path := by
  unfold repoStatus.getRemote
  cases h : (execGitCommand git r.Path ["remote".toList, "-v".toList]).err with
  | some e => simp only [h]
  | none =>
    simp only [h]
    split
    · rfl
    · exact getRemoteLines_path r _

theorem getRemote_err (git : GitExec) (r : repoStatus) :
    (r.getRemote git).2 = (execGitCommand git r.Path ["remote".toList, "-v".toList]).err := by
  unfold repoStatus.getRemote
  cases h : (execGitCommand git r.Path ["remote".toList, "-v".toList]).err with
  | some e => simp only [h]
  | none =>
    simp only [h]
    split <;> rfl

theorem getModifications_err (git : GitExec) (r : repoStatus) :
    (r.getModifications git).2
      = (execGitCommand git r.Path
          ["status".toList, "--porcelain".toList, "-b".toList]).err := by
  unfold repoStatus.getModifications
  cases h : (execGitCommand git r.Path
      ["status".toList, "--porcelain".toList, "-b".toList]).err with
  | some e => simp only [h]
  | none => simp only [h]

/-- The result of `getRepoStatus` in terms of the errors of the three probes. -/
theorem getRepoStatus_error_iff (git : GitExec) (path : GoString) :
    (∃ e, getRepoStatus git path = Except.error e)
      ↔ (((freshStatus path).getCurrentBranch git).2 ≠ none
        ∨ (((freshStatus path).getCurrentBranch git).1.getRemote git).2 ≠ none
        ∨ ((((freshStatus path).getCurrentBranch git).1.getRemote git).1.getModifications
            git).2 ≠ none) := by
  unfold getRepoStatus
  rcases hb : (freshStatus path).getCurrentBranch git with ⟨r1, e1⟩
  cases e1 with
  | some e => simp
  | none =>
    simp only []
    rcases hr : r1.getRemote git with ⟨r2, e2⟩
    cases e2 with
    | some e => simp
    | none =>
      simp only []
      rcases hm : r2.getModifications git with ⟨r3, e3⟩
      cases e3 with
      | some e => simp
      | none => simp

/-! ## The whole probe: the claims -/

/-- C13: probe failure semantics.  `getRepoStatus` returns an error, and then
no status, if and only if both `symbolic-ref --quiet HEAD` and
`rev-parse --short HEAD` fail, or `remote -v` fails, or `status --porcelain -b`
fails; otherwise it returns a status.  In particular it succeeds whenever
`remote -v`, `status --porcelain -b` and one of `symbolic-ref`,
`rev-parse --short` succeed, whatever the result of the stash check
`rev-parse --verify refs/stash`. -/
theorem C13_probe_failure_semantics (git : GitExec) (path : GoString) :
    ((∃ e, getRepoStatus git path = Except.error e)
      ↔ (((execGitCommand git path
              ["symbolic-ref".toList, "--quiet".toList, "HEAD".toList]).err ≠ none
            ∧ (execGitCommand git path
              ["rev-parse".toList, "--short".toList, "HEAD".toList]).err ≠ none)
          ∨ (execGitCommand git path ["remote".toList, "-v".toList]).err ≠ none
          ∨ (execGitCommand git path
              ["status".toList, "--porcelain".toList, "-b".toList]).err ≠ none))
    ∧ ((¬ ∃ e, getRepoStatus git path = Except.error e)
      ↔ ∃ r, getRepoStatus git path = Except.ok r)
    ∧ ((execGitCommand git path
            ["rev-parse".toList, "--short".toList, "HEAD".toList]).err = none →
        (execGitCommand git path ["remote".toList, "-v".toList]).err = none →
        (execGitCommand git path
            ["status".toList, "--porcelain".toList, "-b".toList]).err = none →
        ∃ r, getRepoStatus git path = Except.ok r)
    ∧ ((execGitCommand git path
            ["symbolic-ref".toList, "--quiet".toList, "HEAD".toList]).err = none →
        (execGitCommand git path ["remote".toList, "-v".toList]).err = none →
        (execGitCommand git path
            ["status".toList, "--porcelain".toList, "-b".toList]).err = none →
        ∃ r, getRepoStatus git path = Except.ok r) := by
  have hp1 : ((freshStatus path).getCurrentBranch git).1.Path = path := rfl
  have hp2 : (((freshStatus path).getCurrentBranch git).1.getRemote git).1.Path = path := by
    rw [getRemote_path, hp1]
  have hp0 : (freshStatus path).Path = path := rfl
  have hiff : (∃ e, getRepoStatus git path = Except.error e)
      ↔ (((execGitCommand git path
              ["symbolic-ref".toList, "--quiet".toList, "HEAD".toList]).err ≠ none
            ∧ (execGitCommand git path
              ["rev-parse".toList, "--short".toList, "HEAD".toList]).err ≠ none)
          ∨ (execGitCommand git path ["remote".toList, "-v".toList]).err ≠ none
          ∨ (execGitCommand git path
              ["status".toList, "--porcelain".toList, "-b".toList]).err ≠ none) := by
    rw [getRepoStatus_error_iff, getCurrentBranch_err, getRemote_err, getModifications_err,
      hp0, hp1, hp2]
    cases hs : (execGitCommand git path
        ["symbolic-ref".toList, "--quiet".toList, "HEAD".toList]).err with
    | none => simp
    | some e => simp
  have hok : (¬ ∃ e, getRepoStatus git path = Except.error e)
      ↔ ∃ r, getRepoStatus git path = Except.ok r := by
    cases hres : getRepoStatus git path with
    | error e => simp
    | ok r => simp
  refine ⟨hiff, hok, ?_, ?_⟩
  · intro h1 h2 h3
    apply hok.mp
    rw [hiff]
    rintro (⟨_, h⟩ | h | h)
    · exact h h1
    · exact h h2
    · exact h h3
  · intro h1 h2 h3
    apply hok.mp
    rw [hiff]
    rintro (⟨h, _⟩ | h | h)
    · exact h h1
    · exact h h2
    · exact h h3

/-- C13, at a detached HEAD without a stash, and at a failing `remote -v`. -/
theorem C13_probe_failure_semantics_witness :
    (∃ r, getRepoStatus gitDetachedNoStash [] = Except.ok r)
    ∧ (∃ e, getRepoStatus gitRemoteFails [] = Except.error e) :=
  ⟨(C13_probe_failure_semantics gitDetachedNoStash []).2.2.1 rfl rfl rfl,
    (C13_probe_failure_semantics gitRemoteFails []).1.mpr (Or.inr (Or.inl (by decide)))⟩

/-! ## Sync state and the `changed` flag: further claims -/

/-- C15: the claim fails on the code.  For the porcelain output
`## feature/ahead`, the header of a branch without upstream, which carries
neither an upstream (`...`) nor a tracking part (`[`), `getModifications`
returns no error and reports the sync state ahead, not uptodate: the test for
"ahead" reads the branch name. -/
theorem C15_branch_name_read_as_tracking :
    SplitLines "## feature/ahead\n".toList = ["## feature/ahead".toList, []]
    ∧ Contains "## feature/ahead".toList "...".toList = false
    ∧ Contains "## feature/ahead".toList "[".toList = false
    ∧ ((freshStatus []).getModifications gitBranchNamedAhead).2 = none
    ∧ ((freshStatus []).getModifications gitBranchNamedAhead).1.RemoteStatus
        = "ahead".toList
    ∧ ((freshStatus []).getModifications gitBranchNamedAhead).1.RemoteStatus
        ≠ "uptodate".toList
    ∧ ((freshStatus []).getModifications gitBranchNamedAhead).1.matches false
        ["uptodate".toList] = false := by
  refine ⟨by decide, by decide, by decide, by decide, by decide, by decide, by decide⟩

/-- C16: the claim fails on the code.  For the porcelain output `## main`,
`MM a.txt`, which has a file-status line, and no stash, `getModifications`
leaves `changed` false, and the filter `changed` does not match. -/
theorem C16_changed_not_set_for_unmapped_code :
    (∃ l ∈ SplitLines "## main\nMM a.txt\n".toList,
        3 ≤ goLen l ∧ HasPrefix l "##".toList = false)
    ∧ ((freshStatus []).getModifications gitBothModified).2 = none
    ∧ ((freshStatus []).getModifications gitBothModified).1.Modifications.get
        "changed".toList = false
    ∧ ((freshStatus []).getModifications gitBothModified).1.matches false
        ["changed".toList] = false := by
  refine ⟨by decide, by decide, by decide, by decide⟩

/-! ## Filter algebra: further claims -/

theorem filter_inert_eq_nil (fs : List GoString) (h : ∀ t ∈ fs, isInert t = true) :
    fs.filter (fun t => !isInert t) = [] := by
  rw [List.filter_eq_nil_iff]
  intro t ht
  rw [h t ht]
  simp

/-- C18: identity of the fold.  On a filter list without a recognised keyword
(the empty list, or blank and unrecognised tokens only) `matches` returns true
under AND mode and false under OR mode; hence under OR mode such a filter list
lets no repository be emitted. -/
theorem C18_fold_identity (s : repoStatus) (fs : List GoString)
    (h : ∀ t ∈ fs, isInert t = true) :
    s.matches false fs = true
    ∧ s.matches true fs = false
    ∧ (∀ (render : repoStatus → GoString) (search : GoString),
        emits render true fs search s = false)
    ∧ s.matches false [] = true ∧ s.matches true [] = false := by
  have hand : s.matches false fs = true := by
    unfold repoStatus.matches
    rw [foldl_matchesStep_filter, filter_inert_eq_nil fs h]
    rfl
  have hor : s.matches true fs = false := by
    unfold repoStatus.matches
    rw [foldl_matchesStep_filter, filter_inert_eq_nil fs h]
    rfl
  refine ⟨hand, hor, ?_, rfl, rfl⟩
  intro render search
  unfold emits
  rw [hor]
  rfl

/-- C18, at a blank and an unrecognised token. -/
theorem C18_fold_identity_witness :
    (∀ t ∈ ["".toList, "bogus-keyword".toList], isInert t = true)
    ∧ (freshStatus []).matches false ["".toList, "bogus-keyword".toList] = true
    ∧ (freshStatus []).matches true ["".toList, "bogus-keyword".toList] = false :=
  ⟨by decide,
    (C18_fold_identity (freshStatus []) ["".toList, "bogus-keyword".toList] (by decide)).1,
    (C18_fold_identity (freshStatus []) ["".toList, "bogus-keyword".toList] (by decide)).2.1⟩

theorem effective_toggle (s : repoStatus) (t : FilterToken) :
    t.toggle.effective s = !t.effective s := by
  rcases t with ⟨n, k⟩
  cases n <;> simp [FilterToken.toggle, FilterToken.effective]

theorem all_eq_not_any_toggle (s : repoStatus) (toks : List FilterToken) :
    toks.all (FilterToken.effective s)
      = !(toks.map FilterToken.toggle).any (FilterToken.effective s) := by
  induction toks with
  | nil => rfl
  | cons t ts ih =>
    rw [List.all_cons, List.map_cons, List.any_cons, ih, effective_toggle]
    cases t.effective s <;> simp

/-- C20: De Morgan duality.  For a filter list of recognised tokens, `matches`
under AND mode is the negation of `matches` under OR mode on the list in which
the `no-` prefix of every token is toggled. -/
theorem C20_de_morgan_duality (s : repoStatus) (toks : List FilterToken) :
    s.matches false (toks.map FilterToken.text)
      = !(s.matches true ((toks.map FilterToken.toggle).map FilterToken.text))
    ∧ (∀ k : Keyword,
        (FilterToken.toggle ⟨false, k⟩).text = "no-".toList ++ k.name
        ∧ (FilterToken.toggle ⟨true, k⟩).text = k.name) := by
  constructor
  · unfold repoStatus.matches
    rw [foldl_matchesStep_tokens, foldl_matchesStep_tokens]
    simp only [Bool.not_false, Bool.not_true, Bool.true_and, Bool.false_or, if_true,
      Bool.false_eq_true, if_false]
    exact all_eq_not_any_toggle s toks
  · intro k
    exact ⟨rfl, rfl⟩

/-! ## Traversal: lemmas and claims -/

theorem walkerFkt_returns_nil (path : GoString) (isDir : Bool) :
    (walkerFkt path isDir none).2 = none := by
  unfold walkerFkt
  simp only []
  split_ifs <;> rfl

theorem walkNode_file_eq (path : GoString) (name : GoString) (log : WalkLog) :
    walkNode walkerFkt path (.file name) log
      = (log.add path (walkerFkt path false none).1, (walkerFkt path false none).2) := by
  rw [walkNode]

theorem walkNode_dir_eq (path : GoString) (name : GoString) (children : FsList)
    (log : WalkLog) :
    walkNode walkerFkt path (.dir name children) log
      = walkEntries walkerFkt path children (log.add path (walkerFkt path true none).1) := by
  rw [walkNode, walkerFkt_returns_nil path true]

theorem walkEntries_cons_eq (path : GoString) (c : FsNode) (cs : FsList) (log : WalkLog)
    (h : (walkNode walkerFkt (filepathJoin path c.name) c log).2 = none) :
    walkEntries walkerFkt path (.cons c cs) log
      = walkEntries walkerFkt path cs
          (walkNode walkerFkt (filepathJoin path c.name) c log).1 := by
  rw [walkEntries]
  rcases hres : walkNode walkerFkt (filepathJoin path c.name) c log with ⟨log1, e⟩
  rw [hres] at h
  simp only [] at h
  subst h
  rfl

/-- With `walkerFkt` the walk of an entry never stops early: it returns no
error and hands every path of the entry to the walk function. -/
theorem walkNode_walkerFkt (n : FsNode) : ∀ (path : GoString) (log : WalkLog),
    (walkNode walkerFkt path n log).2 = none
    ∧ (walkNode walkerFkt path n log).1.visited = log.visited ++ nodePaths path n := by
  refine @FsNode.rec
    (fun n => ∀ (path : GoString) (log : WalkLog),
      (walkNode walkerFkt path n log).2 = none
      ∧ (walkNode walkerFkt path n log).1.visited = log.visited ++ nodePaths path n)
    (fun cs => ∀ (path : GoString) (log : WalkLog),
      (walkEntries walkerFkt path cs log).2 = none
      ∧ (walkEntries walkerFkt path cs log).1.visited = log.visited ++ entryPaths path cs)
    ?_ ?_ ?_ ?_ n
  · intro name path log
    rw [walkNode_file_eq, nodePaths]
    exact ⟨walkerFkt_returns_nil path false, rfl⟩
  · intro name children ih path log
    rw [walkNode_dir_eq, nodePaths]
    have h := ih path (log.add path (walkerFkt path true none).1)
    refine ⟨h.1, ?_⟩
    rw [h.2]
    simp [WalkLog.add]
  · intro path log
    rw [walkEntries, entryPaths]
    simp
  · intro c cs ihc ihcs path log
    have hc := ihc (filepathJoin path c.name) log
    rw [walkEntries_cons_eq path c cs log hc.1, entryPaths]
    have hcs := ihcs path (walkNode walkerFkt (filepathJoin path c.name) c log).1
    refine ⟨hcs.1, ?_⟩
    rw [hcs.2, hc.2, List.append_assoc]

/-- C12: the claim fails on the code.  Visiting the directory
`repos/project.git`, whose name is not `.git`, `walkerFkt` publishes its
parent `repos`, and so does the walk of a tree that holds such a directory;
a directory named `.git` publishes its parent, a file named `.git` nothing. -/
theorem C12_directory_suffix_published :
    walkerFkt "repos/project.git".toList true none = (some "repos".toList, none)
    ∧ "repos".toList ∈ (filepathWalk walkerFkt ".".toList treeWithBareRepo).1.published
    ∧ walkerFkt "repos/app/.git".toList true none = (some "repos/app".toList, none)
    ∧ walkerFkt "repos/app/.git".toList false none = (none, none) := by
  refine ⟨by decide, by decide, by decide, by decide⟩

/-- C17, as stated, fails: at the metadata directory `repos/app/.git`
`walkerFkt` publishes the parent and returns nil, not the skip-directory
signal, and the walk goes on to visit `repos/app/.git/HEAD` beneath it. -/
theorem C17_pruning_counterexample :
    walkerFkt "repos/app/.git".toList true none = (some "repos/app".toList, none)
    ∧ (walkerFkt "repos/app/.git".toList true none).2 ≠ some WalkError.skipDir
    ∧ "repos/app/.git/HEAD".toList
        ∈ (filepathWalk walkerFkt ".".toList treeWithBareRepo).1.visited := by
  refine ⟨by decide, by decide, by decide⟩

/-- C17, amended: whenever `walkerFkt` visits a directory whose path ends in
`.git`, it publishes the parent and returns nil; it never returns the
skip-directory signal on an entry that was read without error; so the walk
of a readable directory at such a path visits the directory and every entry
beneath it, and the walk of any readable tree visits every entry and returns
no error. -/
theorem C17_walk_descends_into_metadata (path : GoString)
    (h : HasSuffix path ".git".toList = true) :
    walkerFkt path true none = (some (filepathDir path), none)
    ∧ (∀ (p : GoString) (isDir : Bool), (walkerFkt p isDir none).2 = none)
    ∧ (∀ (name : GoString) (children : FsList) (log : WalkLog),
        (walkNode walkerFkt path (.dir name children) log).1.visited
          = log.visited ++ path :: entryPaths path children)
    ∧ (∀ (root : GoString) (tree : FsNode),
        (filepathWalk walkerFkt root tree).2 = none
        ∧ (filepathWalk walkerFkt root tree).1.visited = nodePaths root tree) := by
  refine ⟨?_, walkerFkt_returns_nil, ?_, ?_⟩
  · unfold walkerFkt
    simp only [h]
    rfl
  · intro name children log
    rw [(walkNode_walkerFkt (.dir name children) path log).2, nodePaths]
  · intro root tree
    have hn := walkNode_walkerFkt tree root { visited := [], published := [] }
    unfold filepathWalk
    rcases hres : walkNode walkerFkt root tree { visited := [], published := [] }
      with ⟨log, e⟩
    rw [hres] at hn
    simp only [] at hn
    obtain ⟨he, hv⟩ := hn
    subst he
    refine ⟨?_, ?_⟩
    · rfl
    · show log.visited = nodePaths root tree
      rw [hv]
      rfl

/-- C17, amended, at the metadata directory of `repos/app`. -/
theorem C17_walk_descends_into_metadata_witness :
    HasSuffix "repos/app/.git".toList ".git".toList = true
    ∧ walkerFkt "repos/app/.git".toList true none
        = (some (filepathDir "repos/app/.git".toList), none)
    ∧ (filepathWalk walkerFkt ".".toList treeWithBareRepo).1.visited
        = nodePaths ".".toList treeWithBareRepo :=
  ⟨by decide,
    (C17_walk_descends_into_metadata "repos/app/.git".toList (by decide)).1,
    ((C17_walk_descends_into_metadata "repos/app/.git".toList (by decide)).2.2.2
      ".".toList treeWithBareRepo).2⟩

/-! ## The pipeline: the claim -/

/-- C14: the claim fails on the code.  With the single repository `repo`
under the root, the schedule in which the consumer receives `repo` and `main`
then finds the queue empty and the wait group at zero, before the consumer
has reached `wg.Add(1)`, ends with `main` returned while the received
repository is neither probed nor emitted.  The schedule in which the consumer
runs `wg.Add(1)` first ends with the repository handled. -/
theorem C14_exit_before_probe :
    (filepathWalk walkerFkt ".".toList treeOneRepo).1.published = ["repo".toList]
    ∧ (Pipeline.start (filepathWalk walkerFkt ".".toList treeOneRepo).1.published).run
        [.send, .walkDone, .receive, .poll, .wait]
      = some { pending := [], queue := [], wg := 0, main := .returned,
               consumer := .received "repo".toList, handled := [] }
    ∧ (Pipeline.start (filepathWalk walkerFkt ".".toList treeOneRepo).1.published).run
        [.send, .walkDone, .receive, .add, .poll, .finish, .wait]
      = some { pending := [], queue := [], wg := 0, main := .returned,
               consumer := .receiving, handled := ["repo".toList] } := by
  refine ⟨by decide, by decide, by decide⟩

end GitRecurseStatus
